import Mathlib

/-!
Verification of the core of `registry/xit.py`: the in-memory test-registry
record model, the XML-shaped codec, and the verify / compare / merge
reconciliation algorithms.

Python dictionaries are modelled as association lists with first-match
lookup and replace-first insertion (a faithful refinement: the program
never relies on dict iteration order except through explicit `sorted`
calls, which are modelled by `sortOn`).  Machine-level concerns (file IO,
terminal rendering, the `subprocess` spawn) are modelled at their
observable boundary; calendar dates are carried as their formatted
`YYYY-MM-DD` strings since no operation inspects their structure.
-/

namespace Xit

/-! ### Sorting (Python `sorted`, keyed) -/

/-- Python `sorted(l)` where elements are ordered by `key` (a stable
insertion sort, as Python's sort is stable). -/
def sortOn {α : Type} {κ : Type} [LinearOrder κ] (key : α → κ) (l : List α) : List α :=
  List.insertionSort (fun a b => key a ≤ key b) l

theorem sortOn_perm {α κ : Type} [LinearOrder κ] (key : α → κ) (l : List α) :
    List.Perm (sortOn key l) l :=
  List.perm_insertionSort _ l

theorem mem_sortOn {α κ : Type} [LinearOrder κ] {key : α → κ} {l : List α} {x : α} :
    x ∈ sortOn key l ↔ x ∈ l :=
  (sortOn_perm key l).mem_iff

theorem sortOn_sorted {α κ : Type} [LinearOrder κ] (key : α → κ) (l : List α) :
    (sortOn key l).Pairwise (fun a b => key a ≤ key b) := by
  have ht : IsTotal α (fun a b => key a ≤ key b) := ⟨fun a b => le_total (key a) (key b)⟩
  have htr : IsTrans α (fun a b => key a ≤ key b) := ⟨fun a _ c h1 h2 => le_trans h1 h2⟩
  exact @List.sorted_insertionSort α _ _ ht htr l

/-! ### Python dict as an association list -/

/-- `d[k]` lookup returning `none` when the key is absent (first match). -/
def dget {β : Type} : List (String × β) → String → Option β
  | [], _ => none
  | p :: ps, k => if p.1 = k then some p.2 else dget ps k

/-- `d[k] = v`: replace the value at an existing key in place, else append. -/
def dset {β : Type} : List (String × β) → String → β → List (String × β)
  | [], k, v => [(k, v)]
  | p :: ps, k, v => if p.1 = k then (k, v) :: ps else p :: dset ps k v

theorem dget_dset {β : Type} (d : List (String × β)) (k k' : String) (v : β) :
    dget (dset d k v) k' = if k = k' then some v else dget d k' := by
  induction d with
  | nil =>
    by_cases h : k = k' <;> simp [dset, dget, h]
  | cons p ps ih =>
    by_cases hp : p.1 = k
    · by_cases h : k = k'
      · simp [dset, dget, hp, h]
      · have hp' : p.1 ≠ k' := fun hc => h (hp.symm.trans hc)
        simp [dset, dget, hp, h, hp']
    · by_cases hq : p.1 = k'
      · have h : ¬ k = k' := fun h => hp (h ▸ hq)
        have h2 : ¬ k' = k := fun hc => h hc.symm
        simp [dset, dget, hp, hq, h, h2]
      · simp [dset, dget, hp, hq, ih]

theorem dget_isSome_of_mem {β : Type} {d : List (String × β)} {k : String} {v : β}
    (h : (k, v) ∈ d) : ∃ w, dget d k = some w := by
  induction d with
  | nil => cases h
  | cons p ps ih =>
    rcases List.mem_cons.mp h with h | h
    · exact ⟨v, by simp [dget, ← h]⟩
    · by_cases hp : p.1 = k
      · exact ⟨p.2, by simp [dget, hp]⟩
      · simpa [dget, hp] using ih h

theorem dget_eq_of_mem_nodup {β : Type} {d : List (String × β)} {k : String} {v : β}
    (hnd : (d.map Prod.fst).Nodup) (h : (k, v) ∈ d) : dget d k = some v := by
  induction d with
  | nil => cases h
  | cons p ps ih =>
    rcases List.mem_cons.mp h with h | h
    · simp [dget, ← h]
    · have hk : k ∈ ps.map Prod.fst := List.mem_map.mpr ⟨(k, v), h, rfl⟩
      have hp : p.1 ≠ k := by
        intro hc
        exact (List.nodup_cons.mp hnd).1 (hc ▸ hk)
      simpa [dget, hp] using ih (List.nodup_cons.mp hnd).2 h

theorem mem_dset {β : Type} {d : List (String × β)} {k : String} {v : β} {q : String × β}
    (h : q ∈ dset d k v) : q = (k, v) ∨ q ∈ d := by
  induction d with
  | nil => simpa [dset] using h
  | cons p ps ih =>
    simp only [List.mem_cons]
    by_cases hp : p.1 = k
    · rcases (by simpa [dset, hp] using h : q = (k, v) ∨ q ∈ ps) with h' | h'
      · exact Or.inl h'
      · exact Or.inr (Or.inr h')
    · rcases (by simpa [dset, hp, List.mem_cons] using h : q = p ∨ q ∈ dset ps k v) with h' | h'
      · exact Or.inr (Or.inl h')
      · rcases ih h' with h'' | h''
        · exact Or.inl h''
        · exact Or.inr (Or.inr h'')

theorem dset_keys_nodup {β : Type} {d : List (String × β)} (k : String) (v : β)
    (hnd : (d.map Prod.fst).Nodup) : ((dset d k v).map Prod.fst).Nodup := by
  induction d with
  | nil => simp [dset]
  | cons p ps ih =>
    rcases List.nodup_cons.mp hnd with ⟨hp, hps⟩
    by_cases hpk : p.1 = k
    · rw [dset, if_pos hpk, List.map_cons, List.nodup_cons]
      exact ⟨by simpa [hpk] using hp, hps⟩
    · rw [dset, if_neg hpk, List.map_cons, List.nodup_cons]
      refine ⟨?_, ih hps⟩
      intro hc
      rcases List.mem_map.mp hc with ⟨q, hq, hqe⟩
      rcases mem_dset hq with h' | h'
      · exact hpk (by rw [← hqe, h'])
      · exact hp (hqe ▸ List.mem_map.mpr ⟨q, h', rfl⟩)

/-! ### Record model (the classes of registry/xit.py) -/

/-- `str2bool`: the boolean tokens the program accepts; any other string
raises `ValueError`, modelled as `none`. -/
def str2bool (s : String) : Option Bool :=
  if s = "True" ∨ s = "true" ∨ s = "1" then some true
  else if s = "False" ∨ s = "false" ∨ s = "0" then some false
  else none

/-- `str(b).lower()` for a Python bool. -/
def boolStr (b : Bool) : String := if b then "true" else "false"

/-- The `Colors` constants used to tag output rows. -/
inductive Colors where
  | DEFAULT
  | RED
  | GREEN
  | BLUE
deriving DecidableEq, Repr

/-- `XITTestCase`: common parent of registry tests and JUnit results:
suite name, case name and a boolean status. -/
structure XITTestCase where
  suite : String
  name : String
  status : Bool
deriving DecidableEq, Repr

/-- `XITBug`: equality (`__eq__`) is on both fields. -/
structure XITBug where
  type : String
  url : String
deriving DecidableEq, Repr

/-- `XITFix` (covers the `XITFixGit` / `XITFixRPM` subclasses via the
`type` discriminator).  Python equality ignores `extra_args`. -/
structure XITFix where
  type : String
  text : String
  extra_args : List (String × String)
deriving DecidableEq, Repr

/-- `XITFix.__eq__`: type and text only; `extra_args` is ignored. -/
def fixEq (a b : XITFix) : Bool := a.type == b.type && a.text == b.text

/-- `XITInfo` (covers `XITInfoText` / `XITInfoURL` via `type`).
Comparison (`__cmp__`) is on (type, text). -/
structure XITInfo where
  type : String
  text : String
deriving DecidableEq, Repr

/-- `XITInfo.createFromType`: only "text" and "url" are valid kinds;
anything else raises `ValueError` (modelled as `none`). -/
def XITInfo.createFromType (ty text : String) : Option XITInfo :=
  if ty = "text" then some ⟨"text", text⟩
  else if ty = "url" then some ⟨"url", text⟩
  else none

/-- `XITFix.createFromType`: only "git" and "rpm" are valid kinds. -/
def XITFix.createFromType (ty text : String) (extra : List (String × String)) :
    Option XITFix :=
  if ty = "git" then some ⟨"git", text, extra⟩
  else if ty = "rpm" then some ⟨"rpm", text, extra⟩
  else none

/-- `XITTest`: a registry test case with attached bugs, info and fixes
(list fields named after the `_bugs` / `_info` / `_fixes` attributes). -/
structure XITTest extends XITTestCase where
  bugs : List XITBug
  info : List XITInfo
  fixes : List XITFix
deriving DecidableEq, Repr

/-- Python `list.remove` wrapped in `try/except ValueError: pass`:
remove the first match, or leave the list unchanged. -/
def removeFirst {α : Type} (p : α → Bool) : List α → List α
  | [] => []
  | x :: xs => if p x then xs else x :: removeFirst p xs

def XITTest.addBug (t : XITTest) (b : XITBug) : XITTest :=
  if b ∈ t.bugs then t else { t with bugs := t.bugs ++ [b] }

def XITTest.removeBug (t : XITTest) (b : XITBug) : XITTest :=
  { t with bugs := removeFirst (fun x => x == b) t.bugs }

def XITTest.addInfo (t : XITTest) (i : XITInfo) : XITTest :=
  if i ∈ t.info then t else { t with info := t.info ++ [i] }

def XITTest.removeInfo (t : XITTest) (i : XITInfo) : XITTest :=
  { t with info := removeFirst (fun x => x == i) t.info }

def XITTest.addFix (t : XITTest) (f : XITFix) : XITTest :=
  if t.fixes.any (fun g => fixEq g f) then t else { t with fixes := t.fixes ++ [f] }

def XITTest.removeFix (t : XITTest) (f : XITFix) : XITTest :=
  { t with fixes := removeFirst (fun g => fixEq g f) t.fixes }

/-- `getBugs`: always the stable (type, url) sort order. -/
def XITTest.getBugs (t : XITTest) : List XITBug :=
  sortOn (fun b => toLex (b.type, b.url)) t.bugs

/-- `getInfo`: always the stable (type, text) sort order. -/
def XITTest.getInfo (t : XITTest) : List XITInfo :=
  sortOn (fun i => toLex (i.type, i.text)) t.info

/-- `getFixes`: always the stable (type, text) sort order. -/
def XITTest.getFixes (t : XITTest) : List XITFix :=
  sortOn (fun f => toLex (f.type, f.text)) t.fixes

/-- `XITModuleVersion`: version metadata attached to a registry.  Note
that the field holding the module name is called `module`; the class has
no attribute named `name`. -/
structure XITModuleVersion where
  module : String
  version : String
  type : String
  repo : Option String
deriving DecidableEq, Repr

/-- `JUnitTestResult`: a live test result; `status` is derived (true iff
no failure children were added). -/
structure JUnitTestResult extends XITTestCase where
  failures : List String
deriving DecidableEq, Repr

/-- `XITTestRegistry`: name, date (carried as its formatted string),
module versions, and the nested dict suite-name → case-name → test. -/
structure XITTestRegistry where
  name : String
  date : String
  moduleversions : List XITModuleVersion
  tests : List (String × List (String × XITTest))
deriving DecidableEq, Repr

/-- `getTest`: lookup by identity, `None` when absent. -/
def XITTestRegistry.getTest (r : XITTestRegistry) (testsuite testcase : String) :
    Option XITTest :=
  (dget r.tests testsuite).bind (fun inner => dget inner testcase)

/-- `addTest`: create the suite dict on demand, then insert keyed by the
test's own suite and name fields (latest write wins). -/
def XITTestRegistry.addTest (r : XITTestRegistry) (t : XITTest) : XITTestRegistry :=
  { r with tests := dset r.tests t.suite (dset ((dget r.tests t.suite).getD []) t.name t) }

/-- `listTestNames`: (suite, case, status) triples, suites and cases in
sorted key order. -/
def XITTestRegistry.listTestNames (r : XITTestRegistry) : List (String × String × Bool) :=
  (sortOn Prod.fst r.tests).flatMap
    (fun p => (sortOn Prod.fst p.2).map (fun q => (p.1, q.1, q.2.status)))

/-! ### Reconciliation engine -/

/-- One output row of verify/compare: the grep-able status code, the
identity, the actual (`Result`) and expected column values. -/
structure VRow where
  code : String
  suite : String
  name : String
  result : String
  expected : String
deriving DecidableEq, Repr

/-- `XITTestRegistryCLI.verify_one_result`.  Both arguments are duck-typed
in the source (registry test, JUnit result, or a second registry's test):
only suite, name and status are read, so both sides are `XITTestCase`
views here.  With both sides absent the source would dereference `None`
(`AttributeError`), modelled as `none`. -/
def verify_one_result (test resultArg : Option XITTestCase) : Option (Colors × VRow) :=
  match test, resultArg with
  | some t, some r =>
    if boolStr t.status ≠ boolStr r.status then
      some (if r.status then Colors.GREEN else Colors.RED,
            ⟨"XX", t.suite, t.name, boolStr r.status, boolStr t.status⟩)
    else
      some (Colors.DEFAULT,
            ⟨if t.status then "++" else "--", t.suite, t.name,
             boolStr r.status, boolStr t.status⟩)
  | some t, none =>
    some (Colors.BLUE, ⟨"??", t.suite, t.name, "", boolStr t.status⟩)
  | none, some r =>
    some (Colors.BLUE, ⟨"??", r.suite, r.name, boolStr r.status, ""⟩)
  | none, none => none

/-- The row-collection loop shared by verify and compare: append the
returned (color, row) pair for each classified item. -/
def collectRows {α : Type} (f : α → Option (Colors × VRow)) (l : List α) :
    List (Colors × VRow) :=
  l.foldl (fun acc x =>
    match f x with
    | some cv => acc ++ [cv]
    | none => acc) []

/-- The classification loop of `verify_results`: one lookup-and-classify
per live result, results sorted by (suite, name). -/
def verify_rows (reg : XITTestRegistry) (results : List JUnitTestResult) :
    List (Colors × VRow) :=
  collectRows
    (fun r => verify_one_result ((reg.getTest r.suite r.name).map (·.toXITTestCase))
      (some r.toXITTestCase))
    (sortOn (fun r : JUnitTestResult => toLex (r.suite, r.name)) results)

/-- The test-row loop of `compare_registry`: iterate `reg1`'s
(suite, case, status) triples in sorted order, classify with `reg1`'s
entry as expected and `reg2`'s as actual. -/
def compare_rows (reg1 reg2 : XITTestRegistry) : List (Colors × VRow) :=
  collectRows
    (fun x : String × String × Bool =>
      verify_one_result ((reg1.getTest x.1 x.2.1).map (·.toXITTestCase))
        ((reg2.getTest x.1 x.2.1).map (·.toXITTestCase)))
    (sortOn (fun x : String × String × Bool => toLex (x.1, toLex (x.2.1, x.2.2)))
      reg1.listTestNames)

/-- `XITTestRegistryCLI.get_meta_comparison`.  The source evaluates
`r.name` for every module version of `reg2`, but `XITModuleVersion` has
no attribute `name`, so any non-empty `reg2.moduleversions` raises
`AttributeError` (modelled as `none`). -/
def get_meta_comparison (reg1 reg2 : XITTestRegistry) :
    Option (List (String × String × String)) :=
  let modules := reg1.moduleversions.map (fun r => r.module)
  match reg2.moduleversions with
  | [] =>
    some (modules.map (fun m =>
      (m,
       String.join (reg1.moduleversions.filterMap
         (fun mr => if mr.module = m then some mr.version else none)),
       String.join (reg2.moduleversions.filterMap
         (fun mr => if mr.module = m then some mr.version else none)))))
  | _ :: _ => none

/-- `XITTestRegistryCLI.merge_registry`: walk `reg2`'s test names; adopt
`reg2`'s test only where `reg1` has no entry for that identity. -/
def merge_registry (reg1 reg2 : XITTestRegistry) : XITTestRegistry :=
  reg2.listTestNames.foldl
    (fun r x =>
      if r.getTest x.1 x.2.1 = none then
        match reg2.getTest x.1 x.2.1 with
        | some t => r.addTest t
        | none => r
      else r) reg1

/-- The exceptions that escape the package-version check. -/
inductive PyErr where
  | notImplemented
  | calledProcessError
deriving DecidableEq, Repr

/-- `XITModuleVersion.compareSystemVersion`.  For non-rpm types it raises
`NotImplementedError`.  For rpm it spawns `rpm -q` and then reads
`p.returncode` without ever calling `wait()`, so the returncode is still
`None`; `None != 0` holds, and `CalledProcessError` is raised
unconditionally, whatever the installed version is. -/
def compareSystemVersion (mv : XITModuleVersion) : Except PyErr (Bool × String) :=
  if mv.type ≠ "rpm" then .error .notImplemented
  else .error .calledProcessError

/-- `check_installed_rpms`: compare each rpm-type module version against
the system; no exception handling around `compareSystemVersion`. -/
def check_installed_rpms (reg : XITTestRegistry) :
    Except PyErr (List (String × String × String)) :=
  reg.moduleversions.foldlM
    (fun acc mv =>
      if mv.type ≠ "rpm" then pure acc
      else do
        let rv ← compareSystemVersion mv
        pure (acc ++ [(mv.module, mv.version, rv.2)]))
    []

/-- The body of `verify_results` after registry selection: the optional
`--check-all` rpm check runs first (uncaught exceptions abort the whole
operation), then the classification rows are produced. -/
def verify_results_core (registry : XITTestRegistry) (results : List JUnitTestResult)
    (check_all : Bool) : Except PyErr (List (Colors × VRow)) := do
  if check_all then
    let _ ← check_installed_rpms registry
  pure (verify_rows registry results)

/-! ### Codec: the registry document shape and `fromXML` / `toXML`

The XML tree is abstracted to record types: attributes become fields
(`Option` when the attribute may be absent), element text becomes a
string field, and the per-tag `iterchildren` loops become per-tag lists. -/

structure DocBug where
  type : Option String
  text : String
deriving DecidableEq, Repr

structure DocInfo where
  type : Option String
  text : String
deriving DecidableEq, Repr

/-- A `fix` element: the full attribute dict (as read by `fix.attrib`)
plus the element text. -/
structure DocFix where
  attrs : List (String × String)
  text : String
deriving DecidableEq, Repr

structure DocCase where
  name : String
  success : String
  bugs : List DocBug
  infos : List DocInfo
  fixes : List DocFix
deriving DecidableEq, Repr

structure DocSuite where
  name : String
  cases : List DocCase
deriving DecidableEq, Repr

structure DocModVersion where
  name : String
  text : String
  type : Option String
  repo : Option String
deriving DecidableEq, Repr

structure DocMeta where
  date : Option String
  modversions : List DocModVersion
deriving DecidableEq, Repr

structure DocRegistry where
  name : String
  metas : List DocMeta
  suites : List DocSuite
deriving DecidableEq, Repr

/-- `time.localtime()` at registry construction, abstracted to a fixed
formatted date (no operation inspects the date's structure). -/
def defaultDate : String := "1970-01-01"

/-- One `bug` child: build the bug with the `bugzilla` type default and
add it (deduplicated). -/
def bugStep (t : XITTest) (b : DocBug) : XITTest :=
  t.addBug ⟨b.type.getD "bugzilla", b.text⟩

/-- One `testinfo` child: dispatch on the (defaulted) type; an unknown
kind raises `ValueError`. -/
def infoStep (t : XITTest) (i : DocInfo) : Option XITTest :=
  (XITInfo.createFromType (i.type.getD "text") i.text).map t.addInfo

/-- One `fix` child: the `type` attribute is required (`KeyError` when
absent), the kind dispatch may raise `ValueError`; the whole attribute
dict rides along as `extra_args`. -/
def fixStep (t : XITTest) (f : DocFix) : Option XITTest :=
  (dget f.attrs "type").bind (fun ty =>
    (XITFix.createFromType ty f.text f.attrs).bind (fun fx => some (t.addFix fx)))

/-- The inner `fromXML` loops for one `testcase` element: parse the
success flag, then fold the bug, testinfo and fix children (in that
order) through the dedup-aware add operations. -/
def decodeCase (suiteName : String) (tc : DocCase) : Option XITTest := do
  let st ← str2bool tc.success
  let t2 ← tc.infos.foldlM infoStep
    (tc.bugs.foldl bugStep ⟨⟨suiteName, tc.name, st⟩, [], [], []⟩)
  tc.fixes.foldlM fixStep t2

/-- All (suite name, testcase element) pairs of one registry element, in
document order — the iteration space of the nested suite/case loops. -/
def regCases (d : DocRegistry) : List (String × DocCase) :=
  d.suites.flatMap (fun su => su.cases.map (fun c => (su.name, c)))

def decodeDate (d : DocRegistry) : String :=
  d.metas.foldl (fun acc m => m.date.getD acc) defaultDate

def decodeModVersions (d : DocRegistry) : List XITModuleVersion :=
  d.metas.flatMap (fun m => m.modversions.map
    (fun mv => ⟨mv.name, mv.text, mv.type.getD "git", mv.repo⟩))

/-- `XITTestRegistry.fromXML` restricted to one registry element. -/
def fromXMLone (d : DocRegistry) : Option XITTestRegistry :=
  (regCases d).foldlM
    (fun r sc => (decodeCase sc.1 sc.2).map r.addTest)
    ⟨d.name, decodeDate d, decodeModVersions d, []⟩

/-- `XITTestRegistry.fromXML`: decode every registry element of the
document; a failure in any aborts the parse. -/
def fromXML (docs : List DocRegistry) : Option (List XITTestRegistry) :=
  docs.mapM fromXMLone

/-- `element.set` repeated over a key/value sequence (lxml attribute
assignment overwrites an existing attribute). -/
def setAttrs (init : List (String × String)) (args : List (String × String)) :
    List (String × String) :=
  args.foldl (fun a kv => dset a kv.1 kv.2) init

def encodeBug (b : XITBug) : DocBug := ⟨some b.type, b.url⟩

def encodeInfo (i : XITInfo) : DocInfo := ⟨some i.type, i.text⟩

/-- A fix element is emitted with its `type` attribute set first, then
every `extra_args` entry. -/
def encodeFix (f : XITFix) : DocFix := ⟨setAttrs [("type", f.type)] f.extra_args, f.text⟩

/-- `repo` is only emitted when truthy (neither `None` nor empty). -/
def encodeModVersion (mv : XITModuleVersion) : DocModVersion :=
  ⟨mv.module, mv.version, some mv.type,
   match mv.repo with
   | some s => if s = "" then none else some s
   | none => none⟩

def encodeCase (t : XITTest) : DocCase :=
  ⟨t.name, boolStr t.status,
   t.getBugs.map encodeBug,
   t.getInfo.map encodeInfo,
   t.getFixes.map encodeFix⟩

/-- One registry element of `toXML`: meta (date, sorted module versions)
followed by the suites in sorted key order, cases sorted within each. -/
def encodeReg (r : XITTestRegistry) : DocRegistry :=
  ⟨r.name,
   [⟨some r.date,
     (sortOn (fun mv : XITModuleVersion => toLex (mv.module, toLex (mv.type, mv.version)))
       r.moduleversions).map encodeModVersion⟩],
   (sortOn Prod.fst r.tests).map
     (fun p => ⟨p.1, (sortOn Prod.fst p.2).map (fun q => encodeCase q.2)⟩)⟩

/-- `toXML(others)`: emit `others` in the order given, substituting
`[self]` when the list is empty. -/
def toXML (self : XITTestRegistry) (others : List XITTestRegistry) : List DocRegistry :=
  (if others = [] then [self] else others).map encodeReg

/-! ### Semantic content of a document (the equality notion of the
round-trip property)

`SemCase` captures what the spec calls the semantic content of a test
case: the parsed success status and the bug / fix / note entity sets
under their dedup keys ((kind, url) for bugs, (kind, text) for fixes and
notes), independent of element order. -/

structure SemCase where
  status : Bool
  bugs : Finset (String × String)
  fixes : Finset (String × String)
  infos : Finset (String × String)
deriving DecidableEq

/-- Dedup key of a bug element, with the documented `bugzilla` default. -/
def bugKey (b : DocBug) : String × String := (b.type.getD "bugzilla", b.text)

/-- Dedup key of a testinfo element (`none` on an unknown kind). -/
def infoKeyD (i : DocInfo) : Option (String × String) :=
  let ty := i.type.getD "text"
  if ty = "text" ∨ ty = "url" then some (ty, i.text) else none

/-- Dedup key of a fix element (`none` when the required `type`
attribute is absent or unknown). -/
def fixKeyD (f : DocFix) : Option (String × String) :=
  (dget f.attrs "type").bind (fun ty =>
    if ty = "git" ∨ ty = "rpm" then some (ty, f.text) else none)

/-- Collect the dedup-key set of a list of elements, failing when any
element is malformed. -/
def keysOfM {α : Type} (key : α → Option (String × String)) (l : List α) :
    Option (Finset (String × String)) :=
  l.foldlM (fun a x => (key x).map (fun k => insert k a)) ∅

/-- Semantic content of one document test case; `none` when the case is
not well formed. -/
def docCaseSem (tc : DocCase) : Option SemCase := do
  let st ← str2bool tc.success
  let iks ← keysOfM infoKeyD tc.infos
  let fks ← keysOfM fixKeyD tc.fixes
  pure ⟨st, (tc.bugs.map bugKey).toFinset, fks, iks⟩

/-- The document's effective case for an identity: the last matching
testcase element (later duplicates overwrite earlier ones on decode). -/
def lookupLastCase (l : List (String × DocCase)) (s c : String) :
    Option (String × DocCase) :=
  l.reverse.find? (fun sc => sc.1 == s && sc.2.name == c)

/-- Semantic content a document attaches to identity (s, c). -/
def docSemLookup (d : DocRegistry) (s c : String) : Option SemCase :=
  (lookupLastCase (regCases d) s c).bind (fun sc => docCaseSem sc.2)

/-- Semantic content of an in-memory test record. -/
def testSem (t : XITTest) : SemCase :=
  ⟨t.status,
   (t.bugs.map (fun b => (b.type, b.url))).toFinset,
   (t.fixes.map (fun f => (f.type, f.text))).toFinset,
   (t.info.map (fun i => (i.type, i.text))).toFinset⟩

/-! ### Well-formedness invariants maintained by the program -/

/-- Every stored test sits under the keys given by its own suite and
name fields (maintained by `addTest`, which keys by those fields). -/
def ConsistentTests (r : XITTestRegistry) : Prop :=
  ∀ p ∈ r.tests, ∀ q ∈ p.2, q.2.suite = p.1 ∧ q.2.name = q.1

/-- Any `type` entry a fix carries in `extra_args` agrees with its
`type` field (true of decoded fixes and of fixes added by the CLI). -/
def FixWF (f : XITFix) : Prop :=
  ∀ kv ∈ f.extra_args, kv.1 = "type" → kv.2 = f.type

/-- Field/kind invariants of a stored test. -/
def GoodTest (sn cn : String) (t : XITTest) : Prop :=
  t.suite = sn ∧ t.name = cn ∧
  (∀ i ∈ t.info, i.type = "text" ∨ i.type = "url") ∧
  (∀ f ∈ t.fixes, (f.type = "git" ∨ f.type = "rpm") ∧ FixWF f)

/-- The registry invariant decode establishes: dict keys are unique at
both levels and every stored test is good. -/
def RegInv (r : XITTestRegistry) : Prop :=
  (r.tests.map Prod.fst).Nodup ∧
  (∀ p ∈ r.tests, (p.2.map Prod.fst).Nodup) ∧
  (∀ p ∈ r.tests, ∀ q ∈ p.2, GoodTest p.1 q.1 q.2)

/-- Document well-formedness used by the round-trip claim: attribute
names within one fix element are unique (guaranteed by XML). -/
def DocWF (d : DocRegistry) : Prop :=
  ∀ sc ∈ regCases d, ∀ f ∈ sc.2.fixes, (f.attrs.map Prod.fst).Nodup

instance (r : XITTestRegistry) : Decidable (ConsistentTests r) := by
  unfold ConsistentTests; infer_instance

instance (f : XITFix) : Decidable (FixWF f) := by
  unfold FixWF; infer_instance

instance (sn cn : String) (t : XITTest) : Decidable (GoodTest sn cn t) := by
  unfold GoodTest; infer_instance

instance (r : XITTestRegistry) : Decidable (RegInv r) := by
  unfold RegInv; infer_instance

instance (d : DocRegistry) : Decidable (DocWF d) := by
  unfold DocWF; infer_instance

/-! ### Helper lemmas -/

theorem boolStr_inj {a b : Bool} : boolStr a = boolStr b ↔ a = b := by
  cases a <;> cases b <;> simp [boolStr]

theorem boolStr_ne_empty (b : Bool) : boolStr b ≠ "" := by
  cases b <;> simp [boolStr]

theorem collectRows_go {α : Type} (f : α → Option (Colors × VRow)) (l : List α)
    (acc : List (Colors × VRow)) :
    l.foldl (fun acc x =>
      match f x with
      | some cv => acc ++ [cv]
      | none => acc) acc = acc ++ l.filterMap f := by
  induction l generalizing acc with
  | nil => simp
  | cons x xs ih =>
    cases hfx : f x <;> simp [List.filterMap_cons, hfx, ih]

theorem collectRows_eq_filterMap {α : Type} (f : α → Option (Colors × VRow)) (l : List α) :
    collectRows f l = l.filterMap f := by
  simpa using collectRows_go f l []

theorem removeFirst_eq_of_forall {α : Type} {p : α → Bool} {l : List α}
    (h : ∀ x ∈ l, ¬ p x) : removeFirst p l = l := by
  induction l with
  | nil => rfl
  | cons x xs ih =>
    rw [removeFirst, if_neg (h x (List.mem_cons_self x xs)),
      ih (fun y hy => h y (List.mem_cons_of_mem x hy))]

theorem filterMap_map_of_forall {α β γ : Type} {f : α → Option β} {g : β → γ} {h : α → γ} :
    ∀ {l : List α}, (∀ x ∈ l, ∃ y, f x = some y ∧ g y = h x) →
      (l.filterMap f).map g = l.map h := by
  intro l
  induction l with
  | nil => intro; rfl
  | cons x xs ih =>
    intro hall
    obtain ⟨y, hy, hgy⟩ := hall x (List.mem_cons_self x xs)
    rw [List.filterMap_cons, hy, List.map_cons, List.map_cons, hgy,
      ih (fun z hz => hall z (List.mem_cons_of_mem x hz))]

theorem foldl_fix {α σ : Type} (step : σ → α → σ) (s : σ) (L : List α)
    (h : ∀ x ∈ L, step s x = s) : L.foldl step s = s := by
  induction L with
  | nil => rfl
  | cons x xs ih =>
    rw [List.foldl_cons, h x (List.mem_cons_self x xs),
      ih (fun y hy => h y (List.mem_cons_of_mem x hy))]

theorem mem_of_dget {β : Type} {d : List (String × β)} {k : String} {v : β}
    (h : dget d k = some v) : (k, v) ∈ d := by
  induction d with
  | nil => cases h
  | cons p ps ih =>
    by_cases hp : p.1 = k
    · have : p.2 = v := by simpa [dget, hp] using h
      exact List.mem_cons.mpr (Or.inl (by rw [← hp, ← this]))
    · exact List.mem_cons.mpr (Or.inr (ih (by simpa [dget, hp] using h)))

theorem getTest_addTest (r : XITTestRegistry) (t : XITTest) (s c : String) :
    (r.addTest t).getTest s c =
      if t.suite = s ∧ t.name = c then some t else r.getTest s c := by
  unfold XITTestRegistry.addTest XITTestRegistry.getTest
  simp only
  rw [dget_dset]
  by_cases hs : t.suite = s
  · rw [if_pos hs]
    simp only [Option.some_bind]
    rw [dget_dset]
    by_cases hn : t.name = c
    · rw [if_pos hn, if_pos ⟨hs, hn⟩]
    · rw [if_neg hn, if_neg (fun hc => hn hc.2), ← hs]
      cases hin : dget r.tests t.suite with
      | none => simp [hin, dget]
      | some inner => simp [hin]
  · rw [if_neg hs, if_neg (fun hc => hs hc.1)]

theorem getTest_consistent {r : XITTestRegistry} (hc : ConsistentTests r)
    {s c : String} {t : XITTest} (h : r.getTest s c = some t) :
    t.suite = s ∧ t.name = c := by
  unfold XITTestRegistry.getTest at h
  cases hout : dget r.tests s with
  | none => rw [hout] at h; cases h
  | some inner =>
    rw [hout] at h
    have h1 := mem_of_dget hout
    have h2 := mem_of_dget h
    exact (hc _ h1 _ h2).imp id id

theorem mem_listTestNames {r : XITTestRegistry} {s c : String} {st : Bool}
    (h : (s, c, st) ∈ r.listTestNames) :
    ∃ inner t, (s, inner) ∈ r.tests ∧ (c, t) ∈ inner ∧ t.status = st := by
  unfold XITTestRegistry.listTestNames at h
  rcases List.mem_flatMap.mp h with ⟨p, hp, hx⟩
  rcases List.mem_map.mp hx with ⟨q, hq, he⟩
  rcases Prod.mk.injEq .. ▸ he with ⟨h1, h23⟩
  rcases Prod.mk.injEq .. ▸ h23 with ⟨h2, h3⟩
  have hp' : p ∈ r.tests := mem_sortOn.mp hp
  have hq' : q ∈ p.2 := mem_sortOn.mp hq
  exact ⟨p.2, q.2, by rw [← h1, Prod.mk.eta]; exact hp',
    by rw [← h2, Prod.mk.eta]; exact hq', h3⟩

theorem listed_getTest_isSome {r : XITTestRegistry}
    (hnd : (r.tests.map Prod.fst).Nodup) {s c : String} {st : Bool}
    (h : (s, c, st) ∈ r.listTestNames) : ∃ t, r.getTest s c = some t := by
  obtain ⟨inner, t, hin, hct, _⟩ := mem_listTestNames h
  unfold XITTestRegistry.getTest
  rw [dget_eq_of_mem_nodup hnd hin]
  simpa using dget_isSome_of_mem hct

/-! ### Claims -/

/-- C1 — Classification totality: for every (expected, actual) pair with
at least one side present, `verify_one_result` returns a row (never
raises) whose code is exactly one of ++, --, XX, ??: ++ or -- when both
are present with equal statuses (picked by the expected status), XX when
both are present with unequal statuses, ?? when exactly one side is
absent. -/
theorem claim_C1_classification_totality (test resultArg : Option XITTestCase)
    (h : test.isSome ∨ resultArg.isSome) :
    ∃ col row, verify_one_result test resultArg = some (col, row) ∧
      (row.code = "++" ∨ row.code = "--" ∨ row.code = "XX" ∨ row.code = "??") ∧
      (∀ t r, test = some t → resultArg = some r → t.status = r.status →
        row.code = if t.status then "++" else "--") ∧
      (∀ t r, test = some t → resultArg = some r → t.status ≠ r.status →
        row.code = "XX") ∧
      ((test.isSome ∧ resultArg = none) ∨ (test = none ∧ resultArg.isSome) →
        row.code = "??") := by
  match test, resultArg with
  | none, none => simp at h
  | some t, none =>
    refine ⟨_, _, rfl, by simp, ?_, ?_, fun _ => rfl⟩
    · intro _ _ _ hc; cases hc
    · intro _ _ _ hc; cases hc
  | none, some r =>
    refine ⟨_, _, rfl, by simp, ?_, ?_, fun _ => rfl⟩
    · intro _ _ hc; cases hc
    · intro _ _ hc; cases hc
  | some t, some r =>
    by_cases hs : t.status = r.status
    · have hb : ¬ boolStr t.status ≠ boolStr r.status := fun hc => hc (by rw [hs])
      refine ⟨Colors.DEFAULT,
        ⟨if t.status then "++" else "--", t.suite, t.name,
         boolStr r.status, boolStr t.status⟩, ?_, ?_, ?_, ?_, ?_⟩
      · simp only [verify_one_result]
        rw [if_neg hb]
      · by_cases hts : t.status <;> simp [hts]
      · intro t' r' ht' hr' _
        cases ht'; cases hr'; rfl
      · intro t' r' ht' hr' hne
        cases ht'; cases hr'; exact absurd hs hne
      · rintro (⟨_, hc⟩ | ⟨hc, _⟩) <;> cases hc
    · have hb : boolStr t.status ≠ boolStr r.status := fun hc => hs (boolStr_inj.mp hc)
      refine ⟨if r.status then Colors.GREEN else Colors.RED,
        ⟨"XX", t.suite, t.name, boolStr r.status, boolStr t.status⟩, ?_, ?_, ?_, ?_, ?_⟩
      · simp only [verify_one_result]
        rw [if_pos hb]
      · simp
      · intro t' r' ht' hr' heq
        cases ht'; cases hr'; exact absurd heq hs
      · intro t' r' ht' hr' _
        cases ht'; cases hr'; rfl
      · rintro (⟨_, hc⟩ | ⟨hc, _⟩) <;> cases hc

/-- Witness for C1 at a concrete pair: expected present with status
true, actual present with status false, classified XX. -/
theorem claim_C1_witness :
    ∃ col row,
      verify_one_result (some ⟨"SuiteA", "Test1", true⟩) (some ⟨"SuiteA", "Test1", false⟩) =
      some (col, row) ∧
      (row.code = "++" ∨ row.code = "--" ∨ row.code = "XX" ∨ row.code = "??") := by
  obtain ⟨col, row, h1, h2, _⟩ :=
    claim_C1_classification_totality (some ⟨"SuiteA", "Test1", true⟩)
      (some ⟨"SuiteA", "Test1", false⟩) (Or.inl rfl)
  exact ⟨col, row, h1, h2⟩

/-- C9 — Dedup and no-op removal: adding a bug/fix/note equal (by the
dedup key: full equality for bugs and notes, (type, text) for fixes) to
one already attached leaves the collection unchanged; removing one with
no equal entry present is a no-op, not an error. -/
theorem claim_C9_dedup_noop (t : XITTest) (b : XITBug) (f : XITFix) (i : XITInfo) :
    (b ∈ t.bugs → t.addBug b = t) ∧
    (b ∉ t.bugs → t.removeBug b = t) ∧
    ((∃ g ∈ t.fixes, fixEq g f) → t.addFix f = t) ∧
    ((∀ g ∈ t.fixes, ¬ fixEq g f) → t.removeFix f = t) ∧
    (i ∈ t.info → t.addInfo i = t) ∧
    (i ∉ t.info → t.removeInfo i = t) := by
  refine ⟨?_, ?_, ?_, ?_, ?_, ?_⟩
  · intro hb; simp [XITTest.addBug, hb]
  · intro hb
    show { t with bugs := _ } = t
    rw [removeFirst_eq_of_forall]
    intro x hx
    simp only [beq_iff_eq]
    exact fun hc => hb (hc ▸ hx)
  · intro hf
    rw [XITTest.addFix, if_pos]
    rcases hf with ⟨g, hg, hgf⟩
    exact List.any_eq_true.mpr ⟨g, hg, hgf⟩
  · intro hf
    show { t with fixes := _ } = t
    rw [removeFirst_eq_of_forall]
    intro g hg
    exact fun hc => hf g hg hc
  · intro hi; simp [XITTest.addInfo, hi]
  · intro hi
    show { t with info := _ } = t
    rw [removeFirst_eq_of_forall]
    intro x hx
    simp only [beq_iff_eq]
    exact fun hc => hi (hc ▸ hx)

/-- Witness for C9 at a concrete test case: one attached bug added
again, and a removal of an unattached bug. -/
theorem claim_C9_witness :
    XITTest.addBug ⟨⟨"s", "c", true⟩, [⟨"bugzilla", "u1"⟩], [], []⟩ ⟨"bugzilla", "u1"⟩ =
      ⟨⟨"s", "c", true⟩, [⟨"bugzilla", "u1"⟩], [], []⟩ ∧
    XITTest.removeBug ⟨⟨"s", "c", true⟩, [⟨"bugzilla", "u1"⟩], [], []⟩ ⟨"bugzilla", "u2"⟩ =
      ⟨⟨"s", "c", true⟩, [⟨"bugzilla", "u1"⟩], [], []⟩ := by
  refine ⟨?_, ?_⟩
  · exact (claim_C9_dedup_noop ⟨⟨"s", "c", true⟩, [⟨"bugzilla", "u1"⟩], [], []⟩
      ⟨"bugzilla", "u1"⟩ ⟨"git", "sha", []⟩ ⟨"text", "note"⟩).1 (by decide)
  · exact (claim_C9_dedup_noop ⟨⟨"s", "c", true⟩, [⟨"bugzilla", "u1"⟩], [], []⟩
      ⟨"bugzilla", "u2"⟩ ⟨"git", "sha", []⟩ ⟨"text", "note"⟩).2.1 (by decide)

/-- A registry with no module versions and one with a single rpm-kind
version of moduleX, for the meta-comparison and rpm-check claims. -/
def regNoMV : XITTestRegistry := ⟨"A", "2013-01-01", [], []⟩

def regOneMV : XITTestRegistry :=
  ⟨"B", "2013-01-01", [⟨"moduleX", "1.1", "rpm", none⟩], []⟩

/-- C6 — the module-version diff does NOT range over the union: as soon
as the second registry carries any module version, `get_meta_comparison`
dereferences the non-existent attribute `r.name` and raises
`AttributeError` (first conjunct); with the sides swapped the second
registry contributes nothing and only the first registry's modules are
listed, B's side paired with the empty string (second conjunct). -/
theorem claim_C6_meta_comparison_crash :
    get_meta_comparison regNoMV regOneMV = none ∧
    get_meta_comparison regOneMV regNoMV = some [("moduleX", "1.1", "")] := by
  constructor <;> rfl

/-- C8 — the `--check-all` package-version check is not advisory: with a
single rpm-kind module version recorded, `compareSystemVersion` raises
(`p.returncode` is read before any `wait()`, so it is still `None` and
the `!= 0` check fires) and nothing catches the exception, so verify
aborts with no classification rows; without `--check-all` the same
invocation succeeds. -/
theorem claim_C8_checkall_aborts_verify :
    verify_results_core regOneMV [] true = Except.error PyErr.calledProcessError ∧
    verify_results_core regOneMV [] false = Except.ok [] := by
  constructor <;> rfl

/-- Preservation of a positive lookup under any `addTest`. -/
theorem getTest_isSome_addTest {r : XITTestRegistry} {s c : String}
    (h : (r.getTest s c).isSome) (t : XITTest) :
    ((r.addTest t).getTest s c).isSome := by
  rw [getTest_addTest]
  by_cases hk : t.suite = s ∧ t.name = c
  · rw [if_pos hk]; rfl
  · rwa [if_neg hk]

/-- One step of the merge fold. -/
def mergeStep (reg2 : XITTestRegistry) (r : XITTestRegistry) (x : String × String × Bool) :
    XITTestRegistry :=
  if r.getTest x.1 x.2.1 = none then
    match reg2.getTest x.1 x.2.1 with
    | some t => r.addTest t
    | none => r
  else r

theorem merge_registry_eq_foldl (reg1 reg2 : XITTestRegistry) :
    merge_registry reg1 reg2 = reg2.listTestNames.foldl (mergeStep reg2) reg1 := rfl

theorem mergeStep_preserves_getTest {reg2 r : XITTestRegistry}
    (hB : ConsistentTests reg2) {s c : String} {t : XITTest}
    (h : r.getTest s c = some t) (x : String × String × Bool) :
    (mergeStep reg2 r x).getTest s c = some t := by
  unfold mergeStep
  by_cases hnone : r.getTest x.1 x.2.1 = none
  · rw [if_pos hnone]
    cases hBt : reg2.getTest x.1 x.2.1 with
    | none => exact h
    | some t' =>
      obtain ⟨hs', hn'⟩ := getTest_consistent hB hBt
      rw [getTest_addTest, if_neg, h]
      rintro ⟨h1, h2⟩
      rw [hs'] at h1
      rw [hn'] at h2
      rw [h1, h2] at hnone
      rw [h] at hnone
      cases hnone
  · rw [if_neg hnone]
    exact h

/-- C2 — Merge non-destructiveness: every identity present in registry A
keeps exactly A's entry after `merge_registry A B`, whatever B contains
(B being a registry the program built, its tests sit under their own
identity keys). -/
theorem claim_C2_merge_nondestructive (A B : XITTestRegistry)
    (hB : ConsistentTests B) (s c : String) (t : XITTest)
    (h : A.getTest s c = some t) :
    (merge_registry A B).getTest s c = some t := by
  rw [merge_registry_eq_foldl]
  generalize B.listTestNames = L
  induction L generalizing A with
  | nil => exact h
  | cons x xs ih =>
    rw [List.foldl_cons]
    exact ih _ (mergeStep_preserves_getTest hB h x)

/-- Witness for C2: A holds one test, B holds a different entry under
the same identity plus a new one; A's entry survives the merge. -/
theorem claim_C2_witness :
    (merge_registry
      ⟨"r", "2013-01-01", [], [("S", [("T1", ⟨⟨"S", "T1", true⟩, [], [], []⟩)])]⟩
      ⟨"r", "2013-01-01", [],
        [("S", [("T1", ⟨⟨"S", "T1", false⟩, [], [], []⟩),
                ("T2", ⟨⟨"S", "T2", true⟩, [], [], []⟩)])]⟩).getTest "S" "T1" =
      some ⟨⟨"S", "T1", true⟩, [], [], []⟩ :=
  claim_C2_merge_nondestructive _ _ (by decide) "S" "T1" _ (by decide)

theorem mergeStep_preserves_isSome {reg2 r : XITTestRegistry} {s c : String}
    (h : (r.getTest s c).isSome) (x : String × String × Bool) :
    ((mergeStep reg2 r x).getTest s c).isSome := by
  unfold mergeStep
  by_cases hnone : r.getTest x.1 x.2.1 = none
  · rw [if_pos hnone]
    cases hBt : reg2.getTest x.1 x.2.1 with
    | none => exact h
    | some t' => exact getTest_isSome_addTest h t'
  · rw [if_neg hnone]
    exact h

theorem foldl_mergeStep_preserves_isSome (reg2 : XITTestRegistry)
    (L : List (String × String × Bool)) {r : XITTestRegistry} {s c : String}
    (h : (r.getTest s c).isSome) :
    ((L.foldl (mergeStep reg2) r).getTest s c).isSome := by
  induction L generalizing r with
  | nil => exact h
  | cons y ys ih =>
    rw [List.foldl_cons]
    exact ih (mergeStep_preserves_isSome h y)

theorem mergeStep_establishes {reg2 r : XITTestRegistry} (hB : ConsistentTests reg2)
    (x : String × String × Bool) (hBx : (reg2.getTest x.1 x.2.1).isSome) :
    ((mergeStep reg2 r x).getTest x.1 x.2.1).isSome := by
  unfold mergeStep
  by_cases hnone : r.getTest x.1 x.2.1 = none
  · rw [if_pos hnone]
    cases hBt : reg2.getTest x.1 x.2.1 with
    | none => rw [hBt] at hBx; cases hBx
    | some t' =>
      obtain ⟨hs', hn'⟩ := getTest_consistent hB hBt
      rw [getTest_addTest, if_pos ⟨hs', hn'⟩]
      rfl
  · rw [if_neg hnone]
    exact Option.isSome_iff_ne_none.mpr hnone

/-- After a merge, every identity of B that B itself can resolve is
present in the result. -/
theorem merge_covers (A B : XITTestRegistry) (hB : ConsistentTests B) :
    ∀ x ∈ B.listTestNames, (B.getTest x.1 x.2.1).isSome →
      ((merge_registry A B).getTest x.1 x.2.1).isSome := by
  rw [merge_registry_eq_foldl]
  generalize B.listTestNames = L
  induction L generalizing A with
  | nil => intro x hx; cases hx
  | cons y ys ih =>
    intro x hx hBx
    rw [List.foldl_cons]
    rcases List.mem_cons.mp hx with he | hm
    · subst he
      exact foldl_mergeStep_preserves_isSome B ys (mergeStep_establishes hB x hBx)
    · exact ih (mergeStep B A y) x hm hBx

/-- C5 — Idempotent merge: `merge(A, A)` leaves A unchanged, and
`merge(merge(A, B), B)` equals `merge(A, B)` (A with unique suite keys,
B with tests stored under their own identity keys, as the program
builds them). -/
theorem claim_C5_merge_idempotent (A B : XITTestRegistry)
    (hA : (A.tests.map Prod.fst).Nodup) (hB : ConsistentTests B) :
    merge_registry A A = A ∧
    merge_registry (merge_registry A B) B = merge_registry A B := by
  constructor
  · rw [merge_registry_eq_foldl]
    apply foldl_fix
    intro x hx
    unfold mergeStep
    obtain ⟨t, ht⟩ := listed_getTest_isSome hA (show (x.1, x.2.1, x.2.2) ∈ A.listTestNames from hx)
    rw [if_neg (by rw [ht]; exact fun hc => Option.noConfusion hc)]
  · rw [merge_registry_eq_foldl (merge_registry A B) B]
    apply foldl_fix
    intro x hx
    unfold mergeStep
    by_cases hM : (merge_registry A B).getTest x.1 x.2.1 = none
    · rw [if_pos hM]
      cases hBt : B.getTest x.1 x.2.1 with
      | none => rfl
      | some t' =>
        have hcov := merge_covers A B hB x hx (by rw [hBt]; rfl)
        rw [hM] at hcov
        cases hcov
    · rw [if_neg hM]

/-- Witness for C5: the scenario A has S.T1, B has S.T1 (different
status) and S.T2. -/
theorem claim_C5_witness :
    merge_registry
      ⟨"r", "2013-01-01", [], [("S", [("T1", ⟨⟨"S", "T1", true⟩, [], [], []⟩)])]⟩
      ⟨"r", "2013-01-01", [], [("S", [("T1", ⟨⟨"S", "T1", true⟩, [], [], []⟩)])]⟩ =
      ⟨"r", "2013-01-01", [], [("S", [("T1", ⟨⟨"S", "T1", true⟩, [], [], []⟩)])]⟩ ∧
    merge_registry
      (merge_registry
        ⟨"r", "2013-01-01", [], [("S", [("T1", ⟨⟨"S", "T1", true⟩, [], [], []⟩)])]⟩
        ⟨"r", "2013-01-01", [],
          [("S", [("T1", ⟨⟨"S", "T1", false⟩, [], [], []⟩),
                  ("T2", ⟨⟨"S", "T2", true⟩, [], [], []⟩)])]⟩)
      ⟨"r", "2013-01-01", [],
        [("S", [("T1", ⟨⟨"S", "T1", false⟩, [], [], []⟩),
                ("T2", ⟨⟨"S", "T2", true⟩, [], [], []⟩)])]⟩ =
      merge_registry
        ⟨"r", "2013-01-01", [], [("S", [("T1", ⟨⟨"S", "T1", true⟩, [], [], []⟩)])]⟩
        ⟨"r", "2013-01-01", [],
          [("S", [("T1", ⟨⟨"S", "T1", false⟩, [], [], []⟩),
                  ("T2", ⟨⟨"S", "T2", true⟩, [], [], []⟩)])]⟩ := by
  constructor
  · exact (claim_C5_merge_idempotent
      ⟨"r", "2013-01-01", [], [("S", [("T1", ⟨⟨"S", "T1", true⟩, [], [], []⟩)])]⟩
      ⟨"r", "2013-01-01", [], [("S", [("T1", ⟨⟨"S", "T1", true⟩, [], [], []⟩)])]⟩
      (by decide) (by decide)).1
  · exact (claim_C5_merge_idempotent
      ⟨"r", "2013-01-01", [], [("S", [("T1", ⟨⟨"S", "T1", true⟩, [], [], []⟩)])]⟩
      ⟨"r", "2013-01-01", [],
        [("S", [("T1", ⟨⟨"S", "T1", false⟩, [], [], []⟩),
                ("T2", ⟨⟨"S", "T2", true⟩, [], [], []⟩)])]⟩
      (by decide) (by decide)).2

/-- When the expected side is present, the emitted row carries the
expected test's identity, whatever the actual side is. -/
theorem verify_one_result_row_id (t : XITTestCase) (o : Option XITTestCase) :
    ∃ col row, verify_one_result (some t) o = some (col, row) ∧
      row.suite = t.suite ∧ row.name = t.name := by
  cases o with
  | none => exact ⟨_, _, rfl, rfl, rfl⟩
  | some r =>
    by_cases hb : boolStr t.status ≠ boolStr r.status
    · refine ⟨if r.status then Colors.GREEN else Colors.RED,
        ⟨"XX", t.suite, t.name, boolStr r.status, boolStr t.status⟩, ?_, rfl, rfl⟩
      simp only [verify_one_result]
      rw [if_pos hb]
    · refine ⟨Colors.DEFAULT,
        ⟨if t.status then "++" else "--", t.suite, t.name,
         boolStr r.status, boolStr t.status⟩, ?_, rfl, rfl⟩
      simp only [verify_one_result]
      rw [if_neg hb]

/-- Registries for the compare-coverage counterexample: the first has no
tests, the second has exactly one. -/
def regCexEmpty : XITTestRegistry := ⟨"R", "2013-01-01", [], []⟩

def regCexBonly : XITTestRegistry :=
  ⟨"R", "2013-01-01", [],
   [("suiteB", [("caseB", ⟨⟨"suiteB", "caseB", true⟩, [], [], []⟩)])]⟩

/-- C3 counterexample: registry B contributes identity
(suiteB, caseB), yet `compare_rows A B` emits no row at all — the
claimed full identity union is not covered; identities present only in
the second registry are dropped. -/
theorem claim_C3_counterexample :
    regCexBonly.listTestNames = [("suiteB", "caseB", true)] ∧
    compare_rows regCexEmpty regCexBonly = [] := by
  constructor
  · rfl
  · rfl

/-- C3 amended — the test rows of compare cover exactly registryA's
identities, in sorted order, with registryA's entry as expected and
registryB's as actual; identities present only in registryB yield no
row. -/
theorem claim_C3_amended_rows_cover_exactly_reg1 (reg1 reg2 : XITTestRegistry)
    (hc : ConsistentTests reg1) (hnd : (reg1.tests.map Prod.fst).Nodup) :
    (compare_rows reg1 reg2).map (fun cv => (cv.2.suite, cv.2.name)) =
      (sortOn (fun x : String × String × Bool => toLex (x.1, toLex (x.2.1, x.2.2)))
        reg1.listTestNames).map (fun x => (x.1, x.2.1)) := by
  unfold compare_rows
  rw [collectRows_eq_filterMap]
  apply filterMap_map_of_forall
  intro x hx
  have hxl : (x.1, x.2.1, x.2.2) ∈ reg1.listTestNames := mem_sortOn.mp hx
  obtain ⟨t, ht⟩ := listed_getTest_isSome hnd hxl
  obtain ⟨hs', hn'⟩ := getTest_consistent hc ht
  obtain ⟨col, row, he, h1, h2⟩ :=
    verify_one_result_row_id t.toXITTestCase
      ((reg2.getTest x.1 x.2.1).map (fun u => u.toXITTestCase))
  refine ⟨(col, row), ?_, ?_⟩
  · rw [ht]
    exact he
  · show (row.suite, row.name) = (x.1, x.2.1)
    rw [h1, h2]
    show (t.suite, t.name) = (x.1, x.2.1)
    rw [hs', hn']

/-- Witness for the amended C3 at the counterexample registries (swapped
so the first registry is the non-empty one). -/
theorem claim_C3_amended_witness :
    (compare_rows regCexBonly regCexEmpty).map (fun cv => (cv.2.suite, cv.2.name)) =
      (sortOn (fun x : String × String × Bool => toLex (x.1, toLex (x.2.1, x.2.2)))
        regCexBonly.listTestNames).map (fun x => (x.1, x.2.1)) :=
  claim_C3_amended_rows_cover_exactly_reg1 regCexBonly regCexEmpty
    (by decide) (by decide)

/-- When the actual side is present, a row is always produced, its
`Result` column is the actual status (never the empty marker of a
missing run), and its identity comes from the expected side when that is
present, else from the actual side. -/
theorem verify_one_result_actual_present (o : Option XITTestCase) (r : XITTestCase) :
    ∃ col row, verify_one_result o (some r) = some (col, row) ∧
      row.result = boolStr r.status ∧
      (∀ t, o = some t → row.suite = t.suite ∧ row.name = t.name) ∧
      (o = none → row.suite = r.suite ∧ row.name = r.name) := by
  cases o with
  | none =>
    refine ⟨_, _, rfl, rfl, ?_, fun _ => ⟨rfl, rfl⟩⟩
    intro _ hc
    cases hc
  | some t =>
    by_cases hb : boolStr t.status ≠ boolStr r.status
    · refine ⟨if r.status then Colors.GREEN else Colors.RED,
        ⟨"XX", t.suite, t.name, boolStr r.status, boolStr t.status⟩, ?_, rfl, ?_, ?_⟩
      · simp only [verify_one_result]
        rw [if_pos hb]
      · intro t' ht'
        cases ht'
        exact ⟨rfl, rfl⟩
      · intro hc
        cases hc
    · refine ⟨Colors.DEFAULT,
        ⟨if t.status then "++" else "--", t.suite, t.name,
         boolStr r.status, boolStr t.status⟩, ?_, rfl, ?_, ?_⟩
      · simp only [verify_one_result]
        rw [if_neg hb]
      · intro t' ht'
        cases ht'
        exact ⟨rfl, rfl⟩
      · intro hc
        cases hc

/-- C10 — verify emits rows only for identities appearing in the live
results: every row's identity is some live result's identity, and no row
is the "test disappeared from this run" classification (whose `Result`
column would be empty) — a registry entry with no live counterpart
yields no row. -/
theorem claim_C10_verify_rows_only_live (reg : XITTestRegistry)
    (results : List JUnitTestResult) (hc : ConsistentTests reg)
    (cv : Colors × VRow) (h : cv ∈ verify_rows reg results) :
    (∃ r ∈ results, cv.2.suite = r.suite ∧ cv.2.name = r.name) ∧
      cv.2.result ≠ "" := by
  unfold verify_rows at h
  rw [collectRows_eq_filterMap] at h
  rcases List.mem_filterMap.mp h with ⟨r, hr, hf⟩
  have hrm : r ∈ results := mem_sortOn.mp hr
  obtain ⟨col, row, he, hres, hsome, hnone⟩ :=
    verify_one_result_actual_present
      ((reg.getTest r.suite r.name).map (fun u => u.toXITTestCase)) r.toXITTestCase
  rw [he] at hf
  injection hf with hf'
  subst hf'
  refine ⟨⟨r, hrm, ?_⟩, by rw [hres]; exact boolStr_ne_empty r.status⟩
  cases hg : reg.getTest r.suite r.name with
  | none =>
    have := hnone (by rw [hg]; rfl)
    exact ⟨this.1, this.2⟩
  | some t =>
    obtain ⟨hs', hn'⟩ := getTest_consistent hc hg
    have := hsome t.toXITTestCase (by rw [hg]; rfl)
    exact ⟨this.1.trans hs', this.2.trans hn'⟩

/-- Witness for C10: a registry expecting S.T1 to pass, a live run where
it failed; the produced XX row carries the live result's identity and a
non-empty actual status. -/
theorem claim_C10_witness :
    (∃ r ∈ [(⟨⟨"S", "T1", false⟩, ["boom"]⟩ : JUnitTestResult)],
      (⟨"XX", "S", "T1", "false", "true"⟩ : VRow).suite = r.suite ∧
      (⟨"XX", "S", "T1", "false", "true"⟩ : VRow).name = r.name) ∧
    (⟨"XX", "S", "T1", "false", "true"⟩ : VRow).result ≠ "" :=
  claim_C10_verify_rows_only_live
    ⟨"r", "2013-01-01", [], [("S", [("T1", ⟨⟨"S", "T1", true⟩, [], [], []⟩)])]⟩
    [⟨⟨"S", "T1", false⟩, ["boom"]⟩] (by decide)
    (Colors.RED, ⟨"XX", "S", "T1", "false", "true"⟩) (by decide)

theorem dget_setAttrs_preserve {k v : String} (args : List (String × String))
    (init : List (String × String)) (hinit : dget init k = some v)
    (h : ∀ kv ∈ args, kv.1 = k → kv.2 = v) :
    dget (setAttrs init args) k = some v := by
  induction args generalizing init with
  | nil => exact hinit
  | cons kv rest ih =>
    show dget (setAttrs (dset init kv.1 kv.2) rest) k = some v
    apply ih
    · rw [dget_dset]
      by_cases hk : kv.1 = k
      · rw [if_pos hk, h kv (List.mem_cons_self kv rest) hk]
      · rw [if_neg hk]
        exact hinit
    · intro kv' h' hk'
      exact h kv' (List.mem_cons_of_mem kv h') hk'

theorem dget_setAttrs_type (ty : String) (args : List (String × String))
    (h : ∀ kv ∈ args, kv.1 = "type" → kv.2 = ty) :
    dget (setAttrs [("type", ty)] args) "type" = some ty :=
  dget_setAttrs_preserve args [("type", ty)] (by simp [dget]) h

/-- C7 counterexample: encoding the collection [B-registry, A-registry]
emits the registry names in the given order ["B", "A"], which is not
sorted by registry name. -/
theorem claim_C7_counterexample :
    (toXML regOneMV [regOneMV, regNoMV]).map DocRegistry.name = ["B", "A"] ∧
    ¬ (["B", "A"].Pairwise (fun a b : String => a ≤ b)) := by
  constructor
  · rfl
  · intro hpw
    have hle : ("B" : String) ≤ "A" :=
      (List.pairwise_cons.mp hpw).1 "A" (List.mem_singleton.mpr rfl)
    rw [String.le_iff_toList_le] at hle
    exact absurd hle (by decide)

/-- C7 amended — encoding emits the registries in the order given (after
substituting [self] for an empty collection), NOT sorted by registry
name; within each registry the suites are sorted by name, the cases are
sorted by name within each suite, and the attached bugs, fixes and notes
come out in their stable (kind, text) sort order.  The inputs are
registries as the program builds them: tests keyed by their own
identity, fixes with consistent type attributes. -/
theorem claim_C7_amended_encode_order (self : XITTestRegistry)
    (others : List XITTestRegistry)
    (hcons : ∀ reg ∈ (if others = [] then [self] else others),
      ConsistentTests reg ∧ ∀ p ∈ reg.tests, ∀ q ∈ p.2, ∀ f ∈ q.2.fixes, FixWF f) :
    (toXML self others).map DocRegistry.name =
      (if others = [] then [self] else others).map XITTestRegistry.name ∧
    ∀ d ∈ toXML self others,
      (d.suites.map DocSuite.name).Pairwise (fun a b => a ≤ b) ∧
      ∀ su ∈ d.suites,
        (su.cases.map DocCase.name).Pairwise (fun a b => a ≤ b) ∧
        ∀ tc ∈ su.cases,
          tc.bugs.Pairwise (fun a b =>
            toLex (a.type.getD "", a.text) ≤ toLex (b.type.getD "", b.text)) ∧
          tc.infos.Pairwise (fun a b =>
            toLex (a.type.getD "", a.text) ≤ toLex (b.type.getD "", b.text)) ∧
          tc.fixes.Pairwise (fun a b =>
            toLex ((dget a.attrs "type").getD "", a.text) ≤
              toLex ((dget b.attrs "type").getD "", b.text)) := by
  constructor
  · unfold toXML
    rw [List.map_map]
    rfl
  · intro d hd
    unfold toXML at hd
    rcases List.mem_map.mp hd with ⟨r, hr, hdr⟩
    obtain ⟨hcr, hfr⟩ := hcons r hr
    subst hdr
    refine ⟨?_, ?_⟩
    · show ((List.map _ (sortOn Prod.fst r.tests)).map DocSuite.name).Pairwise _
      rw [List.map_map, List.pairwise_map]
      exact sortOn_sorted Prod.fst r.tests
    · intro su hsu
      rcases List.mem_map.mp hsu with ⟨p, hp, hsp⟩
      have hpmem : p ∈ r.tests := mem_sortOn.mp hp
      subst hsp
      refine ⟨?_, ?_⟩
      · show ((List.map _ (sortOn Prod.fst p.2)).map DocCase.name).Pairwise _
        rw [List.map_map, List.pairwise_map]
        refine List.Pairwise.imp_of_mem ?_ (sortOn_sorted Prod.fst p.2)
        intro q q' hq hq' hle
        have h1 := (hcr p hpmem q (mem_sortOn.mp hq)).2
        have h2 := (hcr p hpmem q' (mem_sortOn.mp hq')).2
        show q.2.name ≤ q'.2.name
        rw [h1, h2]
        exact hle
      · intro tc htc
        rcases List.mem_map.mp htc with ⟨q, hq, htq⟩
        have hqmem : q ∈ p.2 := mem_sortOn.mp hq
        subst htq
        refine ⟨?_, ?_, ?_⟩
        · show ((XITTest.getBugs q.2).map encodeBug).Pairwise _
          rw [List.pairwise_map]
          refine List.Pairwise.imp ?_
            (sortOn_sorted (fun b : XITBug => toLex (b.type, b.url)) q.2.bugs)
          intro a b hab
          exact hab
        · show ((XITTest.getInfo q.2).map encodeInfo).Pairwise _
          rw [List.pairwise_map]
          refine List.Pairwise.imp ?_
            (sortOn_sorted (fun i : XITInfo => toLex (i.type, i.text)) q.2.info)
          intro a b hab
          exact hab
        · show ((XITTest.getFixes q.2).map encodeFix).Pairwise _
          rw [List.pairwise_map]
          refine List.Pairwise.imp_of_mem ?_
            (sortOn_sorted (fun f : XITFix => toLex (f.type, f.text)) q.2.fixes)
          intro f g hf hg hle
          have hwf1 := hfr p hpmem q hqmem f (mem_sortOn.mp hf)
          have hwf2 := hfr p hpmem q hqmem g (mem_sortOn.mp hg)
          have e1 : dget (encodeFix f).attrs "type" = some f.type :=
            dget_setAttrs_type f.type f.extra_args hwf1
          have e2 : dget (encodeFix g).attrs "type" = some g.type :=
            dget_setAttrs_type g.type g.extra_args hwf2
          show toLex ((dget (encodeFix f).attrs "type").getD "", (encodeFix f).text) ≤
            toLex ((dget (encodeFix g).attrs "type").getD "", (encodeFix g).text)
          rw [e1, e2]
          exact hle

/-- A registry exercising the amended C7: unsorted suites, cases, bugs
and a fix with an extra attribute. -/
def regC7 : XITTestRegistry :=
  ⟨"w", "2013-01-01", [],
   [("s2", [("c1", ⟨⟨"s2", "c1", true⟩,
       [⟨"bugzilla", "u2"⟩, ⟨"bugzilla", "u1"⟩], [], []⟩)]),
    ("s1", [("c2", ⟨⟨"s1", "c2", false⟩, [], [⟨"text", "n"⟩],
       [⟨"git", "sha1", [("repo", "xx")]⟩]⟩)])]⟩

/-- Witness for the amended C7 at `regC7`. -/
theorem claim_C7_amended_witness :
    (toXML regC7 []).map DocRegistry.name = ["w"] ∧
    ((encodeReg regC7).suites.map DocSuite.name).Pairwise (fun a b => a ≤ b) :=
  ⟨(claim_C7_amended_encode_order regC7 [] (by decide)).1,
   ((claim_C7_amended_encode_order regC7 [] (by decide)).2
     (encodeReg regC7) (List.mem_cons_self _ _)).1⟩

/-! ### Round-trip machinery -/

/-- One step of the decode fold over (suite name, testcase) pairs. -/
def decodeStep (r : XITTestRegistry) (sc : String × DocCase) : Option XITTestRegistry :=
  (decodeCase sc.1 sc.2).map r.addTest

theorem fromXMLone_eq (d : DocRegistry) :
    fromXMLone d =
      (regCases d).foldlM decodeStep ⟨d.name, decodeDate d, decodeModVersions d, []⟩ := rfl

theorem decodeCase_eq (sn : String) (tc : DocCase) :
    decodeCase sn tc = (str2bool tc.success).bind (fun st =>
      (tc.infos.foldlM infoStep (tc.bugs.foldl bugStep ⟨⟨sn, tc.name, st⟩, [], [], []⟩)).bind
        (fun t2 => tc.fixes.foldlM fixStep t2)) := rfl

theorem find?_eq_some_of_unique {α : Type} {p : α → Bool} {l : List α} {x : α}
    (hx : x ∈ l) (hpx : p x = true) (huniq : ∀ a ∈ l, p a = true → a = x) :
    l.find? p = some x := by
  induction l with
  | nil => cases hx
  | cons a as ih =>
    by_cases hpa : p a = true
    · rw [List.find?_cons_of_pos _ hpa]
      rw [huniq a (List.mem_cons_self a as) hpa]
    · rw [List.find?_cons_of_neg _ hpa]
      rcases List.mem_cons.mp hx with he | hm
      · exact absurd (he ▸ hpx) hpa
      · exact ih hm (fun b hb hpb => huniq b (List.mem_cons_of_mem a hb) hpb)

theorem mem_nodup_unique {β : Type} {d : List (String × β)}
    (hnd : (d.map Prod.fst).Nodup) {k : String} {v w : β}
    (h1 : (k, v) ∈ d) (h2 : (k, w) ∈ d) : v = w := by
  have e1 := dget_eq_of_mem_nodup hnd h1
  have e2 := dget_eq_of_mem_nodup hnd h2
  rw [e1] at e2
  exact Option.some.injEq .. ▸ e2

theorem lookupLastCase_cons (x : String × DocCase) (xs : List (String × DocCase))
    (s c : String) :
    lookupLastCase (x :: xs) s c =
      match lookupLastCase xs s c with
      | some y => some y
      | none =>
        if x.1 = s ∧ x.2.name = c then some x else none := by
  unfold lookupLastCase
  rw [List.reverse_cons, List.find?_append]
  cases h : xs.reverse.find? (fun sc => sc.1 == s && sc.2.name == c) with
  | some y => rfl
  | none =>
    show Option.or none _ = _
    rw [Option.none_or]
    by_cases hp : x.1 = s ∧ x.2.name = c
    · rw [if_pos hp]
      rw [List.find?_cons_of_pos]
      simp [hp.1, hp.2]
    · rw [if_neg hp]
      rw [List.find?_cons_of_neg, List.find?_nil]
      simp only [Bool.and_eq_true, beq_iff_eq]
      exact fun hc => hp hc

theorem mem_of_lookupLastCase {L : List (String × DocCase)} {s c : String}
    {sc : String × DocCase} (h : lookupLastCase L s c = some sc) :
    sc ∈ L ∧ sc.1 = s ∧ sc.2.name = c := by
  have hm := List.mem_of_find?_eq_some h
  have hp := List.find?_some h
  simp only [Bool.and_eq_true, beq_iff_eq] at hp
  exact ⟨List.mem_reverse.mp hm, hp.1, hp.2⟩

theorem addTest_meta (r : XITTestRegistry) (t : XITTest) :
    (r.addTest t).name = r.name ∧ (r.addTest t).date = r.date ∧
      (r.addTest t).moduleversions = r.moduleversions :=
  ⟨rfl, rfl, rfl⟩

theorem decodeFold_meta :
    ∀ (L : List (String × DocCase)) (r0 r : XITTestRegistry),
      L.foldlM decodeStep r0 = some r →
      r.name = r0.name ∧ r.date = r0.date ∧ r.moduleversions = r0.moduleversions := by
  intro L
  induction L with
  | nil =>
    intro r0 r h
    rw [List.foldlM_nil] at h
    cases h
    exact ⟨rfl, rfl, rfl⟩
  | cons x xs ih =>
    intro r0 r h
    rw [List.foldlM_cons] at h
    cases hdx : decodeCase x.1 x.2 with
    | none =>
      rw [show decodeStep r0 x = none by rw [decodeStep, hdx]; rfl] at h
      cases h
    | some t =>
      rw [show decodeStep r0 x = some (r0.addTest t) by rw [decodeStep, hdx]; rfl] at h
      exact ih (r0.addTest t) r h

theorem decodeFold_all_ok :
    ∀ (L : List (String × DocCase)) (r0 r : XITTestRegistry),
      L.foldlM decodeStep r0 = some r →
      ∀ sc ∈ L, ∃ t, decodeCase sc.1 sc.2 = some t := by
  intro L
  induction L with
  | nil => intro r0 r _ sc hsc; cases hsc
  | cons x xs ih =>
    intro r0 r h sc hsc
    rw [List.foldlM_cons] at h
    cases hdx : decodeCase x.1 x.2 with
    | none =>
      rw [show decodeStep r0 x = none by rw [decodeStep, hdx]; rfl] at h
      cases h
    | some t =>
      rw [show decodeStep r0 x = some (r0.addTest t) by rw [decodeStep, hdx]; rfl] at h
      rcases List.mem_cons.mp hsc with he | hm
      · exact ⟨t, he ▸ hdx⟩
      · exact ih (r0.addTest t) r h sc hm

/-- Part-preservation of the add operations. -/
theorem addBug_parts (t : XITTest) (b : XITBug) :
    (t.addBug b).toXITTestCase = t.toXITTestCase ∧ (t.addBug b).info = t.info ∧
      (t.addBug b).fixes = t.fixes := by
  unfold XITTest.addBug
  split <;> exact ⟨rfl, rfl, rfl⟩

theorem addInfo_parts (t : XITTest) (i : XITInfo) :
    (t.addInfo i).toXITTestCase = t.toXITTestCase ∧ (t.addInfo i).bugs = t.bugs ∧
      (t.addInfo i).fixes = t.fixes := by
  unfold XITTest.addInfo
  split <;> exact ⟨rfl, rfl, rfl⟩

theorem addFix_parts (t : XITTest) (f : XITFix) :
    (t.addFix f).toXITTestCase = t.toXITTestCase ∧ (t.addFix f).bugs = t.bugs ∧
      (t.addFix f).info = t.info := by
  unfold XITTest.addFix
  split <;> exact ⟨rfl, rfl, rfl⟩

theorem bugFold_parts (bs : List DocBug) :
    ∀ (t : XITTest),
      ((bs.foldl bugStep t).toXITTestCase = t.toXITTestCase) ∧
      ((bs.foldl bugStep t).info = t.info) ∧ ((bs.foldl bugStep t).fixes = t.fixes) := by
  induction bs with
  | nil => intro t; exact ⟨rfl, rfl, rfl⟩
  | cons b bs ih =>
    intro t
    rw [List.foldl_cons]
    obtain ⟨h1, h2, h3⟩ := ih (bugStep t b)
    obtain ⟨g1, g2, g3⟩ := addBug_parts t ⟨b.type.getD "bugzilla", b.text⟩
    exact ⟨h1.trans g1, h2.trans g2, h3.trans g3⟩

theorem infoFold_parts :
    ∀ (l : List DocInfo) (t t' : XITTest), l.foldlM infoStep t = some t' →
      t'.toXITTestCase = t.toXITTestCase ∧ t'.bugs = t.bugs ∧ t'.fixes = t.fixes := by
  intro l
  induction l with
  | nil =>
    intro t t' h
    rw [List.foldlM_nil] at h
    cases h
    exact ⟨rfl, rfl, rfl⟩
  | cons i is ih =>
    intro t t' h
    rw [List.foldlM_cons] at h
    cases hc : XITInfo.createFromType (i.type.getD "text") i.text with
    | none =>
      rw [show infoStep t i = none by rw [infoStep, hc]; rfl] at h
      cases h
    | some ii =>
      rw [show infoStep t i = some (t.addInfo ii) by rw [infoStep, hc]; rfl] at h
      obtain ⟨h1, h2, h3⟩ := ih (t.addInfo ii) t' h
      obtain ⟨g1, g2, g3⟩ := addInfo_parts t ii
      exact ⟨h1.trans g1, h2.trans g2, h3.trans g3⟩

theorem fixStep_some {t : XITTest} {f : DocFix} {t' : XITTest}
    (h : fixStep t f = some t') :
    ∃ ty fx, dget f.attrs "type" = some ty ∧
      XITFix.createFromType ty f.text f.attrs = some fx ∧ t' = t.addFix fx := by
  unfold fixStep at h
  cases hty : dget f.attrs "type" with
  | none => rw [hty] at h; cases h
  | some ty =>
    rw [hty] at h
    simp only [Option.some_bind] at h
    cases hfx : XITFix.createFromType ty f.text f.attrs with
    | none => rw [hfx] at h; cases h
    | some fx =>
      rw [hfx] at h
      simp only [Option.some_bind] at h
      cases h
      exact ⟨ty, fx, rfl, hfx, rfl⟩

theorem fixFold_parts :
    ∀ (l : List DocFix) (t t' : XITTest), l.foldlM fixStep t = some t' →
      t'.toXITTestCase = t.toXITTestCase ∧ t'.bugs = t.bugs ∧ t'.info = t.info := by
  intro l
  induction l with
  | nil =>
    intro t t' h
    rw [List.foldlM_nil] at h
    cases h
    exact ⟨rfl, rfl, rfl⟩
  | cons f fs ih =>
    intro t t' h
    rw [List.foldlM_cons] at h
    cases hf : fixStep t f with
    | none => rw [hf] at h; cases h
    | some tm =>
      rw [hf] at h
      obtain ⟨ty, fx, _, _, htm⟩ := fixStep_some hf
      obtain ⟨h1, h2, h3⟩ := ih tm t' h
      obtain ⟨g1, g2, g3⟩ := addFix_parts t fx
      subst htm
      exact ⟨h1.trans g1, h2.trans g2, h3.trans g3⟩

theorem decodeCase_fields {sn : String} {tc : DocCase} {t : XITTest}
    (h : decodeCase sn tc = some t) :
    t.suite = sn ∧ t.name = tc.name ∧ str2bool tc.success = some t.status := by
  rw [decodeCase_eq] at h
  cases hst : str2bool tc.success with
  | none => rw [hst] at h; cases h
  | some st =>
    rw [hst] at h
    simp only [Option.some_bind] at h
    cases hfold : tc.infos.foldlM infoStep
        (tc.bugs.foldl bugStep ⟨⟨sn, tc.name, st⟩, [], [], []⟩) with
    | none => rw [hfold] at h; cases h
    | some t2 =>
      rw [hfold] at h
      simp only [Option.some_bind] at h
      have h3 := (fixFold_parts tc.fixes t2 t h).1
      have h2 := (infoFold_parts tc.infos _ t2 hfold).1
      have h1 := (bugFold_parts tc.bugs ⟨⟨sn, tc.name, st⟩, [], [], []⟩).1
      have hcase : t.toXITTestCase = ⟨sn, tc.name, st⟩ := (h3.trans h2).trans h1
      refine ⟨congrArg XITTestCase.suite hcase, congrArg XITTestCase.name hcase, ?_⟩
      have hstatus : t.status = st := congrArg XITTestCase.status hcase
      exact congrArg some hstatus.symm

theorem decodeFold_getTest :
    ∀ (L : List (String × DocCase)) (r0 r : XITTestRegistry),
      L.foldlM decodeStep r0 = some r → ∀ s c,
      r.getTest s c =
        match lookupLastCase L s c with
        | some sc => decodeCase sc.1 sc.2
        | none => r0.getTest s c := by
  intro L
  induction L with
  | nil =>
    intro r0 r h s c
    rw [List.foldlM_nil] at h
    cases h
    rfl
  | cons x xs ih =>
    intro r0 r h s c
    rw [List.foldlM_cons] at h
    cases hdx : decodeCase x.1 x.2 with
    | none =>
      rw [show decodeStep r0 x = none by rw [decodeStep, hdx]; rfl] at h
      cases h
    | some t =>
      rw [show decodeStep r0 x = some (r0.addTest t) by rw [decodeStep, hdx]; rfl] at h
      have hx := ih (r0.addTest t) r h s c
      cases hll : lookupLastCase xs s c with
      | some y =>
        rw [hll] at hx
        have hcons : lookupLastCase (x :: xs) s c = some y := by
          rw [lookupLastCase_cons, hll]
        rw [hcons]
        exact hx
      | none =>
        rw [hll] at hx
        have hcons : lookupLastCase (x :: xs) s c =
            if x.1 = s ∧ x.2.name = c then some x else none := by
          rw [lookupLastCase_cons, hll]
        rw [hcons]
        obtain ⟨hsu, hna, _⟩ := decodeCase_fields hdx
        by_cases hp : x.1 = s ∧ x.2.name = c
        · rw [if_pos hp, hx, getTest_addTest,
            if_pos ⟨hsu.trans hp.1, hna.trans hp.2⟩]
          exact hdx.symm
        · rw [if_neg hp, hx, getTest_addTest, if_neg]
          intro hc
          exact hp ⟨hsu.symm.trans hc.1, hna.symm.trans hc.2⟩

/-! ### Key-set correspondence between decode and document semantics -/

theorem addBug_keys (t : XITTest) (b : XITBug) :
    ((t.addBug b).bugs.map (fun x => (x.type, x.url))).toFinset =
      insert (b.type, b.url) ((t.bugs.map (fun x => (x.type, x.url))).toFinset) := by
  unfold XITTest.addBug
  by_cases hb : b ∈ t.bugs
  · rw [if_pos hb]
    exact (Finset.insert_eq_self.mpr (List.mem_toFinset.mpr
      (List.mem_map.mpr ⟨b, hb, rfl⟩))).symm
  · rw [if_neg hb]
    show ((t.bugs ++ [b]).map _).toFinset = _
    rw [List.map_append, List.toFinset_append, List.map_singleton,
      List.toFinset_cons, List.toFinset_nil, Finset.union_insert]
    rw [Finset.union_empty]

theorem addInfo_keys (t : XITTest) (i : XITInfo) :
    ((t.addInfo i).info.map (fun x => (x.type, x.text))).toFinset =
      insert (i.type, i.text) ((t.info.map (fun x => (x.type, x.text))).toFinset) := by
  unfold XITTest.addInfo
  by_cases hi : i ∈ t.info
  · rw [if_pos hi]
    exact (Finset.insert_eq_self.mpr (List.mem_toFinset.mpr
      (List.mem_map.mpr ⟨i, hi, rfl⟩))).symm
  · rw [if_neg hi]
    show ((t.info ++ [i]).map _).toFinset = _
    rw [List.map_append, List.toFinset_append, List.map_singleton,
      List.toFinset_cons, List.toFinset_nil, Finset.union_insert]
    rw [Finset.union_empty]

theorem addFix_keys (t : XITTest) (f : XITFix) :
    ((t.addFix f).fixes.map (fun x => (x.type, x.text))).toFinset =
      insert (f.type, f.text) ((t.fixes.map (fun x => (x.type, x.text))).toFinset) := by
  unfold XITTest.addFix
  by_cases hf : t.fixes.any (fun g => fixEq g f) = true
  · rw [if_pos hf]
    rcases List.any_eq_true.mp hf with ⟨g, hg, hgf⟩
    rcases (by simpa [fixEq] using hgf : g.type = f.type ∧ g.text = f.text) with ⟨h1, h2⟩
    exact (Finset.insert_eq_self.mpr (List.mem_toFinset.mpr
      (List.mem_map.mpr ⟨g, hg, by rw [h1, h2]⟩))).symm
  · rw [if_neg hf]
    show ((t.fixes ++ [f]).map _).toFinset = _
    rw [List.map_append, List.toFinset_append, List.map_singleton,
      List.toFinset_cons, List.toFinset_nil, Finset.union_insert]
    rw [Finset.union_empty]

theorem bugFold_keys (bs : List DocBug) :
    ∀ (t : XITTest),
      ((bs.foldl bugStep t).bugs.map (fun x => (x.type, x.url))).toFinset =
        (t.bugs.map (fun x => (x.type, x.url))).toFinset ∪ (bs.map bugKey).toFinset := by
  induction bs with
  | nil => intro t; simp
  | cons b bs ih =>
    intro t
    rw [List.foldl_cons, ih (bugStep t b),
      show ((bugStep t b).bugs.map (fun x => (x.type, x.url))).toFinset =
        insert (bugKey b) ((t.bugs.map (fun x => (x.type, x.url))).toFinset) from
        addBug_keys t _,
      List.map_cons, List.toFinset_cons, Finset.insert_union, Finset.union_insert]

theorem fold_keys_corr {α : Type} (key : α → Option (String × String))
    (upd : XITTest → α → Option XITTest) (proj : XITTest → Finset (String × String))
    (h1 : ∀ t x t', upd t x = some t' → ∃ k, key x = some k ∧ proj t' = insert k (proj t)) :
    ∀ (l : List α) (t t' : XITTest) (acc : Finset (String × String)), proj t = acc →
      l.foldlM upd t = some t' →
      ∃ acc', l.foldlM (fun a x => (key x).map (fun k => insert k a)) acc = some acc' ∧
        proj t' = acc' := by
  intro l
  induction l with
  | nil =>
    intro t t' acc hacc h
    rw [List.foldlM_nil] at h
    cases h
    exact ⟨acc, List.foldlM_nil .., hacc⟩
  | cons x xs ih =>
    intro t t' acc hacc h
    rw [List.foldlM_cons] at h
    cases hu : upd t x with
    | none => rw [hu] at h; cases h
    | some tm =>
      rw [hu] at h
      obtain ⟨k, hk, hins⟩ := h1 t x tm hu
      obtain ⟨acc', ha, hp⟩ := ih tm t' (insert k acc) (by rw [hins, hacc]) h
      refine ⟨acc', ?_, hp⟩
      rw [List.foldlM_cons, hk]
      exact ha

theorem infoStep_key (t : XITTest) (i : DocInfo) (t' : XITTest)
    (h : infoStep t i = some t') :
    ∃ k, infoKeyD i = some k ∧
      ((t'.info.map (fun x => (x.type, x.text))).toFinset =
        insert k ((t.info.map (fun x => (x.type, x.text))).toFinset)) := by
  unfold infoStep at h
  cases hc : XITInfo.createFromType (i.type.getD "text") i.text with
  | none => rw [hc] at h; cases h
  | some ii =>
    rw [hc] at h
    cases h
    refine ⟨(ii.type, ii.text), ?_, addInfo_keys t ii⟩
    unfold XITInfo.createFromType at hc
    unfold infoKeyD
    by_cases h1 : i.type.getD "text" = "text"
    · rw [if_pos h1] at hc
      cases hc
      rw [if_pos (Or.inl h1), h1]
    · rw [if_neg h1] at hc
      by_cases h2 : i.type.getD "text" = "url"
      · rw [if_pos h2] at hc
        cases hc
        rw [if_pos (Or.inr h2), h2]
      · rw [if_neg h2] at hc
        cases hc

theorem fixStep_key (t : XITTest) (f : DocFix) (t' : XITTest)
    (h : fixStep t f = some t') :
    ∃ k, fixKeyD f = some k ∧
      ((t'.fixes.map (fun x => (x.type, x.text))).toFinset =
        insert k ((t.fixes.map (fun x => (x.type, x.text))).toFinset)) := by
  obtain ⟨ty, fx, hty, hfx, ht'⟩ := fixStep_some h
  subst ht'
  refine ⟨(fx.type, fx.text), ?_, addFix_keys t fx⟩
  unfold fixKeyD
  rw [hty]
  simp only [Option.some_bind]
  unfold XITFix.createFromType at hfx
  by_cases h1 : ty = "git"
  · rw [if_pos h1] at hfx
    cases hfx
    rw [if_pos (Or.inl h1), h1]
  · rw [if_neg h1] at hfx
    by_cases h2 : ty = "rpm"
    · rw [if_pos h2] at hfx
      cases hfx
      rw [if_pos (Or.inr h2), h2]
    · rw [if_neg h2] at hfx
      cases hfx

theorem docCaseSem_eq (tc : DocCase) :
    docCaseSem tc = (str2bool tc.success).bind (fun st =>
      (keysOfM infoKeyD tc.infos).bind (fun iks =>
        (keysOfM fixKeyD tc.fixes).bind (fun fks =>
          some ⟨st, (tc.bugs.map bugKey).toFinset, fks, iks⟩))) := rfl

/-- A decode-able document case has exactly the semantic content of the
decoded test record. -/
theorem decodeCase_sem {sn : String} {tc : DocCase} {t : XITTest}
    (h : decodeCase sn tc = some t) : docCaseSem tc = some (testSem t) := by
  rw [decodeCase_eq] at h
  cases hst : str2bool tc.success with
  | none => rw [hst] at h; cases h
  | some st =>
    rw [hst] at h
    simp only [Option.some_bind] at h
    cases hfold : tc.infos.foldlM infoStep
        (tc.bugs.foldl bugStep ⟨⟨sn, tc.name, st⟩, [], [], []⟩) with
    | none => rw [hfold] at h; cases h
    | some t2 =>
      rw [hfold] at h
      simp only [Option.some_bind] at h
      have ht1info : (tc.bugs.foldl bugStep ⟨⟨sn, tc.name, st⟩, [], [], []⟩).info = [] :=
        (bugFold_parts tc.bugs _).2.1
      obtain ⟨iacc, hiacc, hikeys⟩ := fold_keys_corr infoKeyD infoStep
        (fun u => (u.info.map (fun x => (x.type, x.text))).toFinset) infoStep_key
        tc.infos _ t2 ∅ (by simp [ht1info]) hfold
      have ht2fix : t2.fixes = [] := by
        rw [(infoFold_parts tc.infos _ t2 hfold).2.2, (bugFold_parts tc.bugs _).2.2]
      obtain ⟨facc, hfacc, hfkeys⟩ := fold_keys_corr fixKeyD fixStep
        (fun u => (u.fixes.map (fun x => (x.type, x.text))).toFinset) fixStep_key
        tc.fixes t2 t ∅ (by simp [ht2fix]) h
      have hbugkeys : (t.bugs.map (fun x => (x.type, x.url))).toFinset =
          (tc.bugs.map bugKey).toFinset := by
        rw [(fixFold_parts tc.fixes t2 t h).2.1,
          (infoFold_parts tc.infos _ t2 hfold).2.1, bugFold_keys]
        simp
      have hinfokeys : (t.info.map (fun x => (x.type, x.text))).toFinset = iacc := by
        rw [(fixFold_parts tc.fixes t2 t h).2.2]
        exact hikeys
      have hcase : t.toXITTestCase = ⟨sn, tc.name, st⟩ :=
        ((fixFold_parts tc.fixes t2 t h).1.trans
          (infoFold_parts tc.infos _ t2 hfold).1).trans (bugFold_parts tc.bugs _).1
      have hstatus : t.status = st := congrArg XITTestCase.status hcase
      rw [docCaseSem_eq, hst]
      simp only [Option.some_bind]
      rw [show keysOfM infoKeyD tc.infos = some iacc from hiacc]
      simp only [Option.some_bind]
      rw [show keysOfM fixKeyD tc.fixes = some facc from hfacc]
      simp only [Option.some_bind]
      refine congrArg some ?_
      show (⟨st, (tc.bugs.map bugKey).toFinset, facc, iacc⟩ : SemCase) = testSem t
      unfold testSem
      rw [hstatus, hbugkeys, hfkeys, hinfokeys]

/-! ### The registry invariant established by decode -/

theorem mem_addInfo {t : XITTest} {ii i : XITInfo} (h : i ∈ (t.addInfo ii).info) :
    i ∈ t.info ∨ i = ii := by
  unfold XITTest.addInfo at h
  split at h
  · exact Or.inl h
  · rcases List.mem_append.mp h with h' | h'
    · exact Or.inl h'
    · exact Or.inr (List.mem_singleton.mp h')

theorem mem_addFix {t : XITTest} {fx g : XITFix} (h : g ∈ (t.addFix fx).fixes) :
    g ∈ t.fixes ∨ g = fx := by
  unfold XITTest.addFix at h
  split at h
  · exact Or.inl h
  · rcases List.mem_append.mp h with h' | h'
    · exact Or.inl h'
    · exact Or.inr (List.mem_singleton.mp h')

theorem createInfo_type {ty text : String} {ii : XITInfo}
    (h : XITInfo.createFromType ty text = some ii) :
    ii.type = "text" ∨ ii.type = "url" := by
  unfold XITInfo.createFromType at h
  split at h
  · cases h
    exact Or.inl rfl
  · split at h
    · cases h
      exact Or.inr rfl
    · cases h

theorem createFix_fields {ty text : String} {attrs : List (String × String)} {fx : XITFix}
    (h : XITFix.createFromType ty text attrs = some fx) :
    (fx.type = "git" ∨ fx.type = "rpm") ∧ fx.extra_args = attrs ∧ fx.type = ty := by
  unfold XITFix.createFromType at h
  by_cases h1 : ty = "git"
  · rw [if_pos h1] at h
    cases h
    exact ⟨Or.inl rfl, rfl, h1.symm⟩
  · rw [if_neg h1] at h
    by_cases h2 : ty = "rpm"
    · rw [if_pos h2] at h
      cases h
      exact ⟨Or.inr rfl, rfl, h2.symm⟩
    · rw [if_neg h2] at h
      cases h

theorem nodup_attr_type {attrs : List (String × String)} {ty : String}
    (hnd : (attrs.map Prod.fst).Nodup) (h : dget attrs "type" = some ty) :
    ∀ kv ∈ attrs, kv.1 = "type" → kv.2 = ty := by
  intro kv hkv hk
  have hmem : ("type", kv.2) ∈ attrs := by
    rw [← hk, Prod.mk.eta]
    exact hkv
  have h2 := dget_eq_of_mem_nodup hnd hmem
  rw [h] at h2
  exact (Option.some.injEq .. ▸ h2).symm

theorem infoFold_valid :
    ∀ (l : List DocInfo) (t t' : XITTest), l.foldlM infoStep t = some t' →
      (∀ i ∈ t.info, i.type = "text" ∨ i.type = "url") →
      ∀ i ∈ t'.info, i.type = "text" ∨ i.type = "url" := by
  intro l
  induction l with
  | nil =>
    intro t t' h hv
    rw [List.foldlM_nil] at h
    cases h
    exact hv
  | cons i is ih =>
    intro t t' h hv
    rw [List.foldlM_cons] at h
    cases hc : XITInfo.createFromType (i.type.getD "text") i.text with
    | none =>
      rw [show infoStep t i = none by rw [infoStep, hc]; rfl] at h
      cases h
    | some ii =>
      rw [show infoStep t i = some (t.addInfo ii) by rw [infoStep, hc]; rfl] at h
      refine ih (t.addInfo ii) t' h ?_
      intro j hj
      rcases mem_addInfo hj with hj' | hj'
      · exact hv j hj'
      · exact hj' ▸ createInfo_type hc

theorem fixFold_good :
    ∀ (l : List DocFix), (∀ f ∈ l, (f.attrs.map Prod.fst).Nodup) →
      ∀ (t t' : XITTest), l.foldlM fixStep t = some t' →
      (∀ g ∈ t.fixes, (g.type = "git" ∨ g.type = "rpm") ∧ FixWF g) →
      ∀ g ∈ t'.fixes, (g.type = "git" ∨ g.type = "rpm") ∧ FixWF g := by
  intro l
  induction l with
  | nil =>
    intro _ t t' h hv
    rw [List.foldlM_nil] at h
    cases h
    exact hv
  | cons f fs ih =>
    intro hl t t' h hv
    rw [List.foldlM_cons] at h
    cases hf : fixStep t f with
    | none => rw [hf] at h; cases h
    | some tm =>
      rw [hf] at h
      obtain ⟨ty, fx, hty, hfx, htm⟩ := fixStep_some hf
      obtain ⟨hkind, hextra, htyeq⟩ := createFix_fields hfx
      subst htm
      refine ih (fun f' hf' => hl f' (List.mem_cons_of_mem f hf')) (t.addFix fx) t' h ?_
      intro g hg
      rcases mem_addFix hg with hg' | hg'
      · exact hv g hg'
      · subst hg'
        refine ⟨hkind, ?_⟩
        intro kv hkv hk
        rw [hextra] at hkv
        rw [htyeq]
        exact nodup_attr_type (hl f (List.mem_cons_self f fs)) hty kv hkv hk

theorem decodeCase_good {sn : String} {tc : DocCase} {t : XITTest}
    (hnd : ∀ f ∈ tc.fixes, (f.attrs.map Prod.fst).Nodup)
    (h : decodeCase sn tc = some t) :
    (∀ i ∈ t.info, i.type = "text" ∨ i.type = "url") ∧
    (∀ g ∈ t.fixes, (g.type = "git" ∨ g.type = "rpm") ∧ FixWF g) := by
  rw [decodeCase_eq] at h
  cases hst : str2bool tc.success with
  | none => rw [hst] at h; cases h
  | some st =>
    rw [hst] at h
    simp only [Option.some_bind] at h
    cases hfold : tc.infos.foldlM infoStep
        (tc.bugs.foldl bugStep ⟨⟨sn, tc.name, st⟩, [], [], []⟩) with
    | none => rw [hfold] at h; cases h
    | some t2 =>
      rw [hfold] at h
      simp only [Option.some_bind] at h
      constructor
      · have hv2 : ∀ i ∈ t2.info, i.type = "text" ∨ i.type = "url" := by
          refine infoFold_valid tc.infos _ t2 hfold ?_
          rw [(bugFold_parts tc.bugs _).2.1]
          intro i hi
          cases hi
        intro i hi
        rw [(fixFold_parts tc.fixes t2 t h).2.2] at hi
        exact hv2 i hi
      · refine fixFold_good tc.fixes hnd t2 t h ?_
        have h2 : t2.fixes = [] := by
          rw [(infoFold_parts tc.infos _ t2 hfold).2.2, (bugFold_parts tc.bugs _).2.2]
        rw [h2]
        intro g hg
        cases hg

theorem RegInv_addTest {r : XITTestRegistry} {t : XITTest} (hr : RegInv r)
    (hi : ∀ i ∈ t.info, i.type = "text" ∨ i.type = "url")
    (hf : ∀ g ∈ t.fixes, (g.type = "git" ∨ g.type = "rpm") ∧ FixWF g) :
    RegInv (r.addTest t) := by
  obtain ⟨hnd, hinner, hgood⟩ := hr
  have hinnerD : (((dget r.tests t.suite).getD []).map Prod.fst).Nodup := by
    cases hg : dget r.tests t.suite with
    | none => exact List.nodup_nil
    | some inner => exact hinner _ (mem_of_dget hg)
  have hinnerDgood : ∀ q ∈ (dget r.tests t.suite).getD [],
      GoodTest t.suite q.1 q.2 := by
    cases hg : dget r.tests t.suite with
    | none => intro q hq; cases hq
    | some inner =>
      intro q hq
      exact hgood (t.suite, inner) (mem_of_dget hg) q hq
  refine ⟨dset_keys_nodup _ _ hnd, ?_, ?_⟩
  · intro p hp
    rcases mem_dset hp with he | hm
    · rw [he]
      exact dset_keys_nodup _ _ hinnerD
    · exact hinner p hm
  · intro p hp q hq
    rcases mem_dset hp with he | hm
    · rw [he] at hq
      rcases mem_dset hq with he' | hm'
      · rw [he, he']
        exact ⟨rfl, rfl, hi, hf⟩
      · rw [he]
        exact hinnerDgood q hm'
    · exact hgood p hm q hq

theorem decodeFold_inv :
    ∀ (L : List (String × DocCase)),
      (∀ sc ∈ L, ∀ f ∈ sc.2.fixes, (f.attrs.map Prod.fst).Nodup) →
      ∀ (r0 r : XITTestRegistry), RegInv r0 → L.foldlM decodeStep r0 = some r →
      RegInv r := by
  intro L
  induction L with
  | nil =>
    intro _ r0 r h0 h
    rw [List.foldlM_nil] at h
    cases h
    exact h0
  | cons x xs ih =>
    intro hL r0 r h0 h
    rw [List.foldlM_cons] at h
    cases hdx : decodeCase x.1 x.2 with
    | none =>
      rw [show decodeStep r0 x = none by rw [decodeStep, hdx]; rfl] at h
      cases h
    | some t =>
      rw [show decodeStep r0 x = some (r0.addTest t) by rw [decodeStep, hdx]; rfl] at h
      obtain ⟨hgi, hgf⟩ := decodeCase_good (hL x (List.mem_cons_self x xs)) hdx
      exact ih (fun sc hsc => hL sc (List.mem_cons_of_mem x hsc)) (r0.addTest t) r
        (RegInv_addTest h0 hgi hgf) h

theorem fromXMLone_inv {d : DocRegistry} {r : XITTestRegistry}
    (hwf : DocWF d) (hdec : fromXMLone d = some r) : RegInv r := by
  rw [fromXMLone_eq] at hdec
  refine decodeFold_inv (regCases d) hwf _ r ?_ hdec
  refine ⟨List.nodup_nil, ?_, ?_⟩
  · intro p hp
    cases hp
  · intro p hp
    cases hp

theorem getTest_good {r : XITTestRegistry} (hinv : RegInv r) {s c : String} {t : XITTest}
    (h : r.getTest s c = some t) :
    (∀ i ∈ t.info, i.type = "text" ∨ i.type = "url") ∧
    (∀ g ∈ t.fixes, (g.type = "git" ∨ g.type = "rpm") ∧ FixWF g) := by
  unfold XITTestRegistry.getTest at h
  cases hout : dget r.tests s with
  | none => rw [hout] at h; cases h
  | some inner =>
    rw [hout] at h
    have h1 := mem_of_dget hout
    have h2 := mem_of_dget h
    exact ⟨(hinv.2.2 _ h1 _ h2).2.2.1, (hinv.2.2 _ h1 _ h2).2.2.2⟩

/-! ### The encoded document's lookup and semantics -/

theorem getTest_some_parts {r : XITTestRegistry} {s c : String} {t : XITTest}
    (h : r.getTest s c = some t) :
    ∃ inner, dget r.tests s = some inner ∧ dget inner c = some t := by
  unfold XITTestRegistry.getTest at h
  cases hout : dget r.tests s with
  | none => rw [hout] at h; cases h
  | some inner =>
    rw [hout] at h
    exact ⟨inner, rfl, h⟩

theorem mem_regCases_encode {r : XITTestRegistry} {sc : String × DocCase} :
    sc ∈ regCases (encodeReg r) ↔
      ∃ p ∈ r.tests, ∃ q ∈ p.2, sc = (p.1, encodeCase q.2) := by
  constructor
  · intro h
    rcases List.mem_flatMap.mp h with ⟨su, hsu, hsc⟩
    rcases List.mem_map.mp hsu with ⟨p, hp, hsup⟩
    subst hsup
    rcases List.mem_map.mp hsc with ⟨cse, hcse, hsce⟩
    rcases List.mem_map.mp hcse with ⟨q, hq, hcq⟩
    subst hcq
    exact ⟨p, mem_sortOn.mp hp, q, mem_sortOn.mp hq, hsce.symm⟩
  · rintro ⟨p, hp, q, hq, hsce⟩
    subst hsce
    refine List.mem_flatMap.mpr
      ⟨⟨p.1, (sortOn Prod.fst p.2).map (fun u => encodeCase u.2)⟩, ?_, ?_⟩
    · exact List.mem_map.mpr ⟨p, mem_sortOn.mpr hp, rfl⟩
    · exact List.mem_map.mpr ⟨encodeCase q.2,
        List.mem_map.mpr ⟨q, mem_sortOn.mpr hq, rfl⟩, rfl⟩

theorem encode_lookupLast {r : XITTestRegistry} (hinv : RegInv r) (s c : String) :
    lookupLastCase (regCases (encodeReg r)) s c =
      (r.getTest s c).map (fun t => (s, encodeCase t)) := by
  cases hg : r.getTest s c with
  | some t =>
    obtain ⟨inner, hout, hin⟩ := getTest_some_parts hg
    have htmem : (c, t) ∈ inner := mem_of_dget hin
    have houtm : (s, inner) ∈ r.tests := mem_of_dget hout
    have htgood := hinv.2.2 (s, inner) houtm (c, t) htmem
    unfold lookupLastCase
    show _ = some (s, encodeCase t)
    apply find?_eq_some_of_unique
    · rw [List.mem_reverse]
      exact mem_regCases_encode.mpr ⟨(s, inner), houtm, (c, t), htmem, rfl⟩
    · show ((s, encodeCase t).1 == s && (s, encodeCase t).2.name == c) = true
      have hn : (encodeCase t).name = c := htgood.2.1
      rw [hn]
      simp
    · intro a ha hpa
      rw [List.mem_reverse] at ha
      obtain ⟨p, hp, q, hq, hae⟩ := mem_regCases_encode.mp ha
      subst hae
      simp only [Bool.and_eq_true, beq_iff_eq] at hpa
      obtain ⟨hps, hqc⟩ := hpa
      have hqgood := hinv.2.2 p hp q hq
      have hq1 : q.1 = c := by
        rw [← hqgood.2.1]
        exact hqc
      have hpinner : p.2 = inner := by
        have h1 : dget r.tests s = some p.2 := by
          apply dget_eq_of_mem_nodup hinv.1
          rw [← hps, Prod.mk.eta]
          exact hp
        rw [hout] at h1
        exact (Option.some.injEq .. ▸ h1).symm
      have hqt : q.2 = t := by
        have h2 : dget inner c = some q.2 := by
          apply dget_eq_of_mem_nodup (hinv.2.1 (s, inner) houtm)
          rw [← hq1, Prod.mk.eta, ← hpinner]
          exact hq
        rw [hin] at h2
        exact (Option.some.injEq .. ▸ h2).symm
      rw [hps, hqt]
  | none =>
    unfold lookupLastCase
    show _ = none
    rw [List.find?_eq_none]
    intro a ha hpa
    rw [List.mem_reverse] at ha
    obtain ⟨p, hp, q, hq, hae⟩ := mem_regCases_encode.mp ha
    subst hae
    simp only [Bool.and_eq_true, beq_iff_eq] at hpa
    obtain ⟨hps, hqc⟩ := hpa
    have hqgood := hinv.2.2 p hp q hq
    have hq1 : q.1 = c := by
      rw [← hqgood.2.1]
      exact hqc
    have h1 : dget r.tests s = some p.2 := by
      apply dget_eq_of_mem_nodup hinv.1
      rw [← hps, Prod.mk.eta]
      exact hp
    have h2 : ∃ w, dget p.2 c = some w := by
      apply dget_isSome_of_mem
      rw [← hq1, Prod.mk.eta]
      exact hq
    obtain ⟨w, hw⟩ := h2
    have : r.getTest s c = some w := by
      unfold XITTestRegistry.getTest
      rw [h1]
      exact hw
    rw [hg] at this
    cases this

theorem keysOfM_all_some {α : Type} (key : α → Option (String × String))
    (g : α → String × String) :
    ∀ (l : List α) (acc : Finset (String × String)), (∀ x ∈ l, key x = some (g x)) →
      l.foldlM (fun a x => (key x).map (fun k => insert k a)) acc =
        some (acc ∪ (l.map g).toFinset) := by
  intro l
  induction l with
  | nil =>
    intro acc _
    rw [List.foldlM_nil]
    simp
  | cons x xs ih =>
    intro acc hall
    rw [List.foldlM_cons, hall x (List.mem_cons_self x xs)]
    have hx := ih (insert (g x) acc) (fun y hy => hall y (List.mem_cons_of_mem x hy))
    show xs.foldlM _ (insert (g x) acc) = _
    rw [hx, List.map_cons, List.toFinset_cons, Finset.union_insert, Finset.insert_union]

/-- Re-encoding a good test yields a document case with exactly the
test's semantic content. -/
theorem docCaseSem_encodeCase {t : XITTest}
    (hi : ∀ i ∈ t.info, i.type = "text" ∨ i.type = "url")
    (hf : ∀ g ∈ t.fixes, (g.type = "git" ∨ g.type = "rpm") ∧ FixWF g) :
    docCaseSem (encodeCase t) = some (testSem t) := by
  rw [docCaseSem_eq]
  have hsucc : str2bool (encodeCase t).success = some t.status := by
    show str2bool (boolStr t.status) = some t.status
    cases t.status <;> rfl
  rw [hsucc]
  simp only [Option.some_bind]
  have hinfos : keysOfM infoKeyD (encodeCase t).infos =
      some ((t.info.map (fun i => (i.type, i.text))).toFinset) := by
    have h1 : ∀ x ∈ t.getInfo.map encodeInfo,
        infoKeyD x = some (x.type.getD "text", x.text) := by
      intro x hx
      rcases List.mem_map.mp hx with ⟨i, hi2, hxe⟩
      have hiv : i.type = "text" ∨ i.type = "url" := hi i (mem_sortOn.mp hi2)
      subst hxe
      unfold infoKeyD
      rw [if_pos (show (encodeInfo i).type.getD "text" = "text" ∨
        (encodeInfo i).type.getD "text" = "url" from hiv)]
    show keysOfM infoKeyD (t.getInfo.map encodeInfo) = _
    rw [keysOfM, keysOfM_all_some infoKeyD (fun x => (x.type.getD "text", x.text))
      (t.getInfo.map encodeInfo) ∅ h1, Finset.empty_union, List.map_map]
    exact congrArg some (List.toFinset_eq_of_perm _ _
      ((sortOn_perm (fun i : XITInfo => toLex (i.type, i.text)) t.info).map
        (fun i => (i.type, i.text))))
  rw [hinfos]
  simp only [Option.some_bind]
  have hfixes : keysOfM fixKeyD (encodeCase t).fixes =
      some ((t.fixes.map (fun g => (g.type, g.text))).toFinset) := by
    have h1 : ∀ x ∈ t.getFixes.map encodeFix,
        fixKeyD x = some ((dget x.attrs "type").getD "", x.text) := by
      intro x hx
      rcases List.mem_map.mp hx with ⟨f, hf2, hxe⟩
      obtain ⟨hkind, hwf⟩ := hf f (mem_sortOn.mp hf2)
      subst hxe
      have hd : dget (encodeFix f).attrs "type" = some f.type :=
        dget_setAttrs_type f.type f.extra_args hwf
      unfold fixKeyD
      rw [hd]
      simp only [Option.some_bind]
      rw [if_pos hkind]
      rfl
    show keysOfM fixKeyD (t.getFixes.map encodeFix) = _
    rw [keysOfM, keysOfM_all_some fixKeyD
      (fun x => ((dget x.attrs "type").getD "", x.text))
      (t.getFixes.map encodeFix) ∅ h1, Finset.empty_union, List.map_map]
    refine congrArg some ?_
    have hmapeq : t.getFixes.map
        ((fun x : DocFix => ((dget x.attrs "type").getD "", x.text)) ∘ encodeFix) =
        t.getFixes.map (fun g => (g.type, g.text)) := by
      apply List.map_congr_left
      intro f hfm
      obtain ⟨hkind, hwf⟩ := hf f (mem_sortOn.mp hfm)
      show ((dget (encodeFix f).attrs "type").getD "", (encodeFix f).text) =
        (f.type, f.text)
      rw [show dget (encodeFix f).attrs "type" = some f.type from
        dget_setAttrs_type f.type f.extra_args hwf]
      rfl
    rw [hmapeq]
    exact List.toFinset_eq_of_perm _ _
      ((sortOn_perm (fun f : XITFix => toLex (f.type, f.text)) t.fixes).map
        (fun g => (g.type, g.text)))
  rw [hfixes]
  simp only [Option.some_bind]
  refine congrArg some ?_
  have hb : ((encodeCase t).bugs.map bugKey).toFinset =
      (t.bugs.map (fun b => (b.type, b.url))).toFinset := by
    show ((t.getBugs.map encodeBug).map bugKey).toFinset = _
    rw [List.map_map]
    exact List.toFinset_eq_of_perm _ _
      ((sortOn_perm (fun b : XITBug => toLex (b.type, b.url)) t.bugs).map
        (fun b => (b.type, b.url)))
  rw [show ((encodeCase t).bugs.map bugKey).toFinset =
    (t.bugs.map (fun b => (b.type, b.url))).toFinset from hb]
  rfl

/-- C4 — Round-trip: for every well-formed registry document (attribute
names unique within each fix element, as XML guarantees) that decodes,
re-encoding the decoded registry yields a document with the same
registry name and, at every (suite, case) identity, exactly the same
semantic content — the parsed success status and the bug / fix / note
dedup-key sets — independent of the element ordering of the original
document. -/
theorem claim_C4_roundtrip (d : DocRegistry) (r : XITTestRegistry)
    (hwf : DocWF d) (hdec : fromXMLone d = some r) :
    (encodeReg r).name = d.name ∧
    ∀ s c, docSemLookup (encodeReg r) s c = docSemLookup d s c := by
  have hinv : RegInv r := fromXMLone_inv hwf hdec
  rw [fromXMLone_eq] at hdec
  constructor
  · show r.name = d.name
    exact (decodeFold_meta (regCases d) _ r hdec).1
  · intro s c
    have hg := decodeFold_getTest (regCases d) _ r hdec s c
    unfold docSemLookup
    rw [encode_lookupLast hinv s c]
    cases hll : lookupLastCase (regCases d) s c with
    | none =>
      rw [hll] at hg
      have hnone : r.getTest s c = none := hg
      rw [hnone]
      rfl
    | some sc =>
      rw [hll] at hg
      have hg' : r.getTest s c = decodeCase sc.1 sc.2 := hg
      have hscL : sc ∈ regCases d := (mem_of_lookupLastCase hll).1
      obtain ⟨t, ht⟩ := decodeFold_all_ok (regCases d) _ r hdec sc hscL
      rw [ht] at hg'
      rw [hg']
      show docCaseSem (encodeCase t) = docCaseSem sc.2
      have hgood := getTest_good hinv hg'
      rw [docCaseSem_encodeCase hgood.1 hgood.2]
      exact (decodeCase_sem ht).symm

/-- A small document for the round-trip witness: one suite, one case
with a bug, a note and a git fix carrying an extra attribute. -/
def docW : DocRegistry :=
  ⟨"regW", [⟨some "2013-01-01", []⟩],
   [⟨"suiteW", [⟨"caseW", "true",
      [⟨some "bugzilla", "http-bug"⟩],
      [⟨some "text", "a note"⟩],
      [⟨[("type", "git"), ("repo", "rr")], "sha1"⟩]⟩]⟩]⟩

/-- The registry `docW` decodes to. -/
def regW : XITTestRegistry :=
  ⟨"regW", "2013-01-01", [],
   [("suiteW", [("caseW",
      ⟨⟨"suiteW", "caseW", true⟩,
       [⟨"bugzilla", "http-bug"⟩],
       [⟨"text", "a note"⟩],
       [⟨"git", "sha1", [("type", "git"), ("repo", "rr")]⟩]⟩)])]⟩

/-- Witness for C4 at `docW`. -/
theorem claim_C4_witness :
    (encodeReg regW).name = docW.name ∧
    docSemLookup (encodeReg regW) "suiteW" "caseW" =
      docSemLookup docW "suiteW" "caseW" :=
  ⟨(claim_C4_roundtrip docW regW (by decide) (by rfl)).1,
   (claim_C4_roundtrip docW regW (by decide) (by rfl)).2 "suiteW" "caseW"⟩

end Xit
